import Mathlib

/-!
Shallow embedding of the order-execution core of the upbit_coin_contest
repository (services/order_service.py, services/matching_engine.py,
routers/trading.py, routers/competitions.py, cache.py).

Python `Decimal` values are modelled as exact rationals (ℚ); the float
round-trip inside validate_price is likewise modelled on exact rationals.  The relational
store is modelled sequentially: a participant's row is a rational balance, the
positions table is a list of rows (unique on `code` for the single participant
we model), and the orders table is a list of order records.  A raised
`HTTPException` / `ValueError` is an `Except.error`; since every handler runs
in one transaction that rolls back on error, an error leaves the state
unchanged (the sequence semantics `step` below keeps the pre-state).
-/

namespace UpbitSim


/-- Order side, `side ∈ {buy, sell}` in the source. -/
inductive Side where
  | buy
  | sell
deriving DecidableEq, Repr

/-- Order type, `order_type ∈ {market, limit}` in the source. -/
inductive OType where
  | market
  | limit
deriving DecidableEq, Repr

/-- Order status as used by the order service (`partially_filled` never occurs). -/
inductive OStatus where
  | pending
  | filled
  | cancelled
deriving DecidableEq, Repr

/-- One row of the `positions` table for the modelled participant
(models/position.py): coin code, quantity, average buy price. -/
structure Position where
  code : String
  qty : ℚ
  avg : ℚ
deriving DecidableEq, Repr

/-- One row of the `orders` table for the modelled participant
(models/order.py).  `oid` stands in for the UUID primary key and
`createdAt` for the `created_at` timestamp (creation index). -/
structure Order where
  oid : ℕ
  code : String
  side : Side
  otype : OType
  price : Option ℚ
  qty : ℚ
  filledQty : ℚ
  filledPrice : Option ℚ
  fee : ℚ
  status : OStatus
  createdAt : ℕ
deriving DecidableEq, Repr

/-- Errors raised by the embedded code paths (HTTPException / ValueError sites). -/
inductive Err where
  | invalidPrice
  | priceDeviation
  | insufficientBalance
  | insufficientPosition
  | notPending
  | notLimit
  | notFound
  | invalidExecPrice
  | priceMismatch
  | duplicateOrder
deriving DecidableEq, Repr

/-- Model of PRICE_RANGES from order_service.py: per-code sanity band (KRW). -/
def PRICE_RANGES : String → Option (ℚ × ℚ)
  | "KRW-BTC" => some (50000000, 200000000)
  | "KRW-ETH" => some (2000000, 10000000)
  | "KRW-XRP" => some (300, 5000)
  | "KRW-SOL" => some (50000, 500000)
  | "KRW-DOGE" => some (100, 2000)
  | "KRW-ADA" => some (200, 3000)
  | "KRW-AVAX" => some (10000, 200000)
  | "KRW-DOT" => some (3000, 50000)
  | "KRW-LINK" => some (5000, 100000)
  | "KRW-MATIC" => some (200, 5000)
  | _ => none

/-- Model of validate_price from order_service.py: outside half the lower bound or
twice the upper bound is rejected; codes without a range always pass. -/
def validate_price (code : String) (price : ℚ) : Bool :=
  match PRICE_RANGES code with
  | none => true
  | some (lo, hi) =>
      if price < lo * (1 / 2) ∨ hi * 2 < price then false else true

/-- Model of MAX_PRICE_DEVIATION from order_service.py (`Decimal("0.10")`). -/
def MAX_PRICE_DEVIATION : ℚ := 1 / 10

/-- Model of validate_price_against_market from order_service.py: market price must be
positive and the relative deviation of the order price at most 10%. -/
def validate_price_against_market (orderPrice marketPrice : ℚ) : Bool :=
  if marketPrice ≤ 0 then false
  else if MAX_PRICE_DEVIATION < |orderPrice - marketPrice| / marketPrice then false
  else true

/-- Epsilon of cleanup_zero_positions (`Decimal("0.0001")`). -/
def EPS : ℚ := 1 / 10000

/-- Model of get_position: first (unique) row for the code. -/
def getPosition (code : String) (l : List Position) : Option Position :=
  l.find? (fun r => r.code = code)

/-- Conditional `UPDATE positions SET quantity = quantity + d WHERE code = ?`
on the (unique) row of the code; the debits of the source use `d = -q`,
the cancel refund uses `d = q`. -/
def adjQty (code : String) (d : ℚ) : List Position → List Position
  | [] => []
  | r :: rs =>
      if r.code = code then { r with qty := r.qty + d } :: rs
      else r :: adjQty code d rs

/-- Model of upsert_position from order_service.py: `INSERT ... ON CONFLICT DO UPDATE`
with weighted-average price (avg kept when the new quantity is not positive). -/
def upsert_position (code : String) (q p : ℚ) : List Position → List Position
  | [] => [⟨code, q, p⟩]
  | r :: rs =>
      if r.code = code then
        { r with
          qty := r.qty + q,
          avg := if 0 < r.qty + q then (r.qty * r.avg + q * p) / (r.qty + q) else r.avg } :: rs
      else r :: upsert_position code q p rs

/-- Model of cleanup_zero_positions from order_service.py: delete every row of the code
whose quantity is at most EPS. -/
def cleanup_zero_positions (code : String) (l : List Position) : List Position :=
  l.filter (fun r => !(decide (r.code = code ∧ r.qty ≤ EPS)))

/-- Cost basis of a positions table: sum of quantity times average buy price. -/
def costBasis (l : List Position) : ℚ :=
  (l.map (fun r => r.qty * r.avg)).sum

/-- Cost basis that cleanup_zero_positions deletes for a code (ghost quantity
used by the conservation ledger). -/
def deletedCost (code : String) (l : List Position) : ℚ :=
  costBasis (l.filter (fun r => decide (r.code = code ∧ r.qty ≤ EPS)))

/-- Database state of the modelled participant: cash balance, positions table,
orders table, and the next fresh order id (also used as creation timestamp). -/
structure St where
  balance : ℚ
  positions : List Position
  orders : List Order
  nextId : ℕ
deriving DecidableEq, Repr

/-- Update (first-match, ids are unique) of the order row with the given id. -/
def updateOrd (oid : ℕ) (f : Order → Order) : List Order → List Order
  | [] => []
  | o :: os => if o.oid = oid then f o :: os else o :: updateOrd oid f os

/-- Field updates of execute_limit_order when an order fills. -/
def fillOrd (e fee : ℚ) (o : Order) : Order :=
  { o with status := .filled, filledQty := o.qty, filledPrice := some e, fee := fee }

/-- Cash reserved by one order row: a pending buy limit order reserves
`price·qty + fee(price·qty)`; every other row reserves no cash. -/
def resContrib (fr : ℚ) (o : Order) : ℚ :=
  if o.status = .pending ∧ o.side = .buy ∧ o.otype = .limit then
    o.price.getD 0 * o.qty + o.price.getD 0 * o.qty * fr
  else 0

/-- Cash reserved by the pending buy limit orders of the table. -/
def reservedBuy (fr : ℚ) (s : St) : ℚ :=
  (s.orders.map (resContrib fr)).sum

/-- Fee contribution of one order row: only filled orders carry a fee. -/
def feeContrib (o : Order) : ℚ :=
  if o.status = .filled then o.fee else 0

/-- Cumulative fees of the filled orders of the table. -/
def cumFees (s : St) : ℚ :=
  (s.orders.map feeContrib).sum

/-- Model of create_market_order from order_service.py (sequential model).
The fast-fail check and the atomic-guard conditional update test the same
condition, so both appear (the guard can only differ under concurrency,
which the sequential store model does not exhibit).  On success the new
state and the created (immediately filled) order are returned. -/
def create_market_order (fr : ℚ) (code : String) (side : Side) (q c : ℚ)
    (s : St) : Except Err (St × Order) :=
  if validate_price code c = false then .error .invalidPrice else
  let total := c * q
  let fee := total * fr
  match side with
  | .buy =>
      let tc := total + fee
      if s.balance < tc then .error .insufficientBalance
      else if s.balance < tc then .error .insufficientBalance
      else
        let o : Order :=
          ⟨s.nextId, code, .buy, .market, none, q, q, some c, fee, .filled, s.nextId⟩
        .ok ({ s with
                balance := s.balance - tc,
                positions := upsert_position code q c s.positions,
                orders := s.orders ++ [o],
                nextId := s.nextId + 1 }, o)
  | .sell =>
      match getPosition code s.positions with
      | none => .error .insufficientPosition
      | some r =>
          if r.qty < q then .error .insufficientPosition
          else if r.qty < q then .error .insufficientPosition
          else
            let o : Order :=
              ⟨s.nextId, code, .sell, .market, none, q, q, some c, fee, .filled, s.nextId⟩
            let positions1 := adjQty code (-q) s.positions
            .ok ({ s with
                    balance := s.balance + (total - fee),
                    positions := cleanup_zero_positions code positions1,
                    orders := s.orders ++ [o],
                    nextId := s.nextId + 1 }, o)

/-- Reservation part of create_limit_order (step 4 of the source: the
atomic-guard debit of cash for a buy or coin for a sell, then the insert of
the pending order). -/
def limit_reserve (fr : ℚ) (code : String) (side : Side) (q p : ℚ)
    (s : St) : Except Err (St × Order) :=
  let total := p * q
  let fee := total * fr
  match side with
  | .buy =>
      let tc := total + fee
      if s.balance < tc then .error .insufficientBalance
      else if s.balance < tc then .error .insufficientBalance
      else
        let o : Order :=
          ⟨s.nextId, code, .buy, .limit, some p, q, 0, none, 0, .pending, s.nextId⟩
        .ok ({ s with
                balance := s.balance - tc,
                orders := s.orders ++ [o],
                nextId := s.nextId + 1 }, o)
  | .sell =>
      match getPosition code s.positions with
      | none => .error .insufficientPosition
      | some r =>
          if r.qty < q then .error .insufficientPosition
          else if r.qty < q then .error .insufficientPosition
          else
            let o : Order :=
              ⟨s.nextId, code, .sell, .limit, some p, q, 0, none, 0, .pending, s.nextId⟩
            .ok ({ s with
                    positions := adjQty code (-q) s.positions,
                    orders := s.orders ++ [o],
                    nextId := s.nextId + 1 }, o)

/-- Model of create_limit_order from order_service.py: band check on the limit price,
deviation check against the market price when one is supplied, escalation to
a market order at the market price when the limit crosses it, otherwise
reservation of cash/coin and insertion of a pending order. -/
def create_limit_order (fr : ℚ) (code : String) (side : Side) (q p : ℚ)
    (cur : Option ℚ) (s : St) : Except Err (St × Order) :=
  if validate_price code p = false then .error .invalidPrice else
  match cur with
  | some m =>
      if validate_price_against_market p m = false then .error .priceDeviation
      else if (side = .buy ∧ m ≤ p) ∨ (side = .sell ∧ p ≤ m) then
        create_market_order fr code side q m s
      else
        limit_reserve fr code side q p s
  | none => limit_reserve fr code side q p s

/-- Model of cancel_order from order_service.py, addressed by order id: only pending
limit orders cancel; a buy refunds the reserved cash, a sell refunds the
reserved coin to the position row, re-creating it (UPSERT, average set to the
limit price) when the conditional update matched no row. -/
def cancel_order (fr : ℚ) (oid : ℕ) (s : St) : Except Err St :=
  match s.orders.find? (fun o => o.oid = oid) with
  | none => .error .notFound
  | some o =>
      if o.status ≠ .pending then .error .notPending
      else if o.otype ≠ .limit then .error .notLimit
      else
        let p := o.price.getD 0
        let total := p * o.qty
        let fee := total * fr
        let orders1 := updateOrd oid (fun x => { x with status := .cancelled }) s.orders
        match o.side with
        | .buy =>
            .ok { s with
                   balance := s.balance + (total + fee),
                   orders := orders1 }
        | .sell =>
            match getPosition o.code s.positions with
            | some _ =>
                .ok { s with
                       positions := adjQty o.code o.qty s.positions,
                       orders := orders1 }
            | none =>
                .ok { s with
                       positions := s.positions ++ [⟨o.code, o.qty, p⟩],
                       orders := orders1 }

/-- Model of execute_limit_order from order_service.py (called by the matching
engine): re-validate the execution price; a buy upserts the position at the
execution price and refunds the price difference when it filled below the
limit price; a sell credits the proceeds net of fee and runs ε-cleanup;
the order becomes filled at the execution price. -/
def execute_limit_order (fr : ℚ) (o : Order) (e : ℚ) (s : St) : Except Err St :=
  if validate_price o.code e = false then .error .invalidExecPrice else
  let total := e * o.qty
  let fee := total * fr
  match o.side with
  | .buy =>
      let priceDiff := o.price.getD 0 - e
      let refund := if 0 < priceDiff then priceDiff * o.qty else 0
      .ok { s with
             balance := s.balance + refund,
             positions := upsert_position o.code o.qty e s.positions,
             orders := updateOrd o.oid (fillOrd e fee) s.orders }
  | .sell =>
      .ok { s with
             balance := s.balance + (total - fee),
             positions := cleanup_zero_positions o.code s.positions,
             orders := updateOrd o.oid (fillOrd e fee) s.orders }

/-- Execution of a resting order as driven by the matching engine
(matching_engine.py): the engine only hands execute_limit_order an order that
is pending, of limit type, and whose limit price crosses the tick price
(price ≥ tick for buys, price ≤ tick for sells). -/
def engine_execute (fr : ℚ) (oid : ℕ) (e : ℚ) (s : St) : Except Err St :=
  match s.orders.find? (fun o => o.oid = oid) with
  | none => .error .notFound
  | some o =>
      if o.status = .pending ∧ o.otype = .limit ∧
          (o.side = .buy → e ≤ o.price.getD 0) ∧
          (o.side = .sell → o.price.getD 0 ≤ e) then
        execute_limit_order fr o e s
      else .error .notPending

/-- One order operation of the system: market create, limit create, cancel,
or an engine-driven limit execution. -/
inductive Op where
  | market (code : String) (side : Side) (q c : ℚ)
  | limit (code : String) (side : Side) (q p : ℚ) (cur : Option ℚ)
  | cancel (oid : ℕ)
  | exec (oid : ℕ) (e : ℚ)
deriving DecidableEq, Repr

/-- Requested quantity of an operation (creates only). -/
def opQty : Op → ℚ
  | .market _ _ q _ => q
  | .limit _ _ q _ _ => q
  | .cancel _ => 0
  | .exec _ _ => 0

/-- Transaction semantics of one operation: an error rolls the transaction
back, so the state is unchanged. -/
def step (fr : ℚ) (s : St) : Op → St
  | .market code side q c =>
      match create_market_order fr code side q c s with
      | .ok (s1, _) => s1
      | .error _ => s
  | .limit code side q p cur =>
      match create_limit_order fr code side q p cur s with
      | .ok (s1, _) => s1
      | .error _ => s
  | .cancel oid =>
      match cancel_order fr oid s with
      | .ok s1 => s1
      | .error _ => s
  | .exec oid e =>
      match engine_execute fr oid e s with
      | .ok s1 => s1
      | .error _ => s

/-- State of a participant right after joining with the initial balance. -/
def initSt (b0 : ℚ) : St := ⟨b0, [], [], 0⟩

/-- Well-formedness of a state: stored quantities are nonnegative and order
ids are below the fresh-id counter. -/
def Wf (s : St) : Prop :=
  (∀ r ∈ s.positions, 0 ≤ r.qty) ∧ (∀ o ∈ s.orders, 0 ≤ o.qty) ∧
    (∀ o ∈ s.orders, o.oid < s.nextId)

/-- Conserved ledger of a state: reserved cash of pending buy limit orders,
plus cash balance, plus cost basis of positions, plus fees already paid. -/
def led (fr : ℚ) (s : St) : ℚ :=
  reservedBuy fr s + s.balance + costBasis s.positions + cumFees s

/-- Ledger drift of a market order against the pre-state: a buy conserves
the ledger; a successful sell realizes `(price − avg) · qty` of profit or
loss and additionally drops the cost of ε-cleaned rows. -/
def ghostMarket (s : St) (code : String) (side : Side) (q c : ℚ) : ℚ :=
  if validate_price code c = false then 0
  else
    match side with
    | .buy => 0
    | .sell =>
        match getPosition code s.positions with
        | none => 0
        | some r =>
            if r.qty < q then 0
            else (c - r.avg) * q - deletedCost code (adjQty code (-q) s.positions)

/-- Ledger drift of the reservation step of a limit order: a buy conserves
the ledger; a successful sell removes the reserved coin's cost basis. -/
def ghostReserve (s : St) (code : String) (side : Side) (q : ℚ) : ℚ :=
  match side with
  | .buy => 0
  | .sell =>
      match getPosition code s.positions with
      | none => 0
      | some r => if r.qty < q then 0 else -(q * r.avg)

/-- Ledger drift of one operation against the pre-state.  Cancel of a sell
puts the refunded coin back at the current (or, if the row is gone, the
limit) price; an executed buy below its limit price leaks the unreturned
part of the reserved fee; an executed sell books the gross proceeds against
the reservation and drops ε-cleaned cost. -/
def ghostDelta (fr : ℚ) (s : St) : Op → ℚ
  | .market code side q c => ghostMarket s code side q c
  | .limit code side q p cur =>
      if validate_price code p = false then 0
      else
        match cur with
        | some m =>
            if validate_price_against_market p m = false then 0
            else if (side = .buy ∧ m ≤ p) ∨ (side = .sell ∧ p ≤ m) then
              ghostMarket s code side q m
            else ghostReserve s code side q
        | none => ghostReserve s code side q
  | .cancel oid =>
      match s.orders.find? (fun o => o.oid = oid) with
      | none => 0
      | some o =>
          if o.status ≠ .pending then 0
          else if o.otype ≠ .limit then 0
          else
            match o.side with
            | .buy => 0
            | .sell =>
                match getPosition o.code s.positions with
                | some r => o.qty * r.avg
                | none => o.qty * o.price.getD 0
  | .exec oid e =>
      match s.orders.find? (fun o => o.oid = oid) with
      | none => 0
      | some o =>
          if o.status = .pending ∧ o.otype = .limit ∧
              (o.side = .buy → e ≤ o.price.getD 0) ∧
              (o.side = .sell → o.price.getD 0 ≤ e) then
            if validate_price o.code e = false then 0
            else
              match o.side with
              | .buy => -((o.price.getD 0 - e) * o.qty * fr)
              | .sell => e * o.qty - deletedCost o.code s.positions
          else 0

/-- Run a sequence of operations from a fresh join. -/
def run (fr b0 : ℚ) (ops : List Op) : St :=
  ops.foldl (step fr) (initSt b0)

/-- Accumulated ledger drift along a run. -/
def ghostSum (fr : ℚ) : St → List Op → ℚ
  | _, [] => 0
  | s, op :: ops => ghostDelta fr s op + ghostSum fr (step fr s op) ops

/-- Two-operation run used to refute the reservation equality: a market buy
of 100 KRW-XRP at 1000, then a non-crossing limit sell of the full 100 at
1200 (fee rate 0.0005, initial balance 1,000,000). -/
def c3ops : List Op :=
  [Op.market "KRW-XRP" Side.buy 100 1000, Op.limit "KRW-XRP" Side.sell 100 1200 none]

/-- Final state of the c3ops run. -/
def c3St : St := run (1 / 2000) 1000000 c3ops

/-- Run used to refute the ε-invariant: a market buy of 10 KRW-XRP at 1000,
then a non-crossing limit sell reserving the full 10 at 1200. -/
def c4St : St :=
  run (1 / 2000) 1000000
    [Op.market "KRW-XRP" Side.buy 10 1000, Op.limit "KRW-XRP" Side.sell 10 1200 none]

/-- Pre-state for the C4 witness: 10 KRW-XRP held at average price 1000. -/
def c4wSt : St := ⟨1000, [⟨"KRW-XRP", 10, 1000⟩], [], 0⟩

/-- Post-state of a market sell of 4 KRW-XRP at 1000 from c4wSt. -/
def c4wSt1 : St :=
  ⟨1000 + (4000 - 2), [⟨"KRW-XRP", 6, 1000⟩],
    [⟨0, "KRW-XRP", .sell, .market, none, 4, 4, some 1000, 2, .filled, 0⟩], 1⟩

/-- Pending order created by the C5 witness run. -/
def c5Ord : Order := ⟨0, "KRW-XRP", .buy, .limit, some 900, 10, 0, none, 0, .pending, 0⟩

/-- State after the C5 witness creates its limit buy. -/
def c5St1 : St :=
  ⟨1000000 - (900 * 10 + 900 * 10 * (1 / 2000)), [], [c5Ord], 1⟩

/-- Pending limit sell of 5 KRW-XRP whose position row has been ε-cleaned
away, for the C6 witness. -/
def c6Ord : Order := ⟨0, "KRW-XRP", .sell, .limit, some 1500, 5, 0, none, 0, .pending, 0⟩

/-- State holding only the orphaned pending sell of the C6 witness. -/
def c6St : St := ⟨0, [], [c6Ord], 1⟩

/-- Order produced by the C2 witness: a crossing limit buy escalated to a
market fill at the market price 950. -/
def c2Ord : Order :=
  ⟨0, "KRW-XRP", .buy, .market, none, 10, 10, some 950, 950 * 10 * (1 / 2000), .filled, 0⟩

/-- State after the C2 witness order fills. -/
def c2St1 : St :=
  ⟨1000000 - (950 * 10 + 950 * 10 * (1 / 2000)), [⟨"KRW-XRP", 10, 950⟩], [c2Ord], 1⟩

/-- Model of validate_client_price from routers/trading.py: a nonpositive server
price passes (failsafe); otherwise a deviation above 10% raises a
price-mismatch error. -/
def validate_client_price (clientPrice serverPrice : ℚ) : Except Err Bool :=
  if serverPrice ≤ 0 then .ok true
  else if MAX_PRICE_DEVIATION < |clientPrice - serverPrice| / serverPrice then
    .error .priceMismatch
  else .ok true

/-- Price selection of POST /orders (routers/trading.py create_order):
when the archive yields a truthy (nonzero) server price, validate the client
price against it and use the server price; otherwise fall back to the
client price. -/
def select_validated_price (clientPrice : ℚ) (serverPrice : Option ℚ) :
    Except Err ℚ :=
  match serverPrice with
  | some s =>
      if s ≠ 0 then
        match validate_client_price clientPrice s with
        | .ok _ => .ok s
        | .error e => .error e
      else .ok clientPrice
  | none => .ok clientPrice

/-- Cache connection state and key store of cache.py (TTL abstracted to
membership within the suppression window). -/
structure Cache where
  connected : Bool
  keys : List String
deriving DecidableEq, Repr

/-- Model of setnx_with_ttl from cache.py: set-if-absent that returns True (pass)
whenever the backend is not connected. -/
def setnx_with_ttl (c : Cache) (key : String) : Bool × Cache :=
  if c.connected = false then (true, c)
  else if key ∈ c.keys then (false, c)
  else (true, { c with keys := key :: c.keys })

/-- Duplicate-suppression step of POST /orders (routers/trading.py): with an
idempotency key, a 409 duplicate error is raised iff the conditional set
fails; without a cache the check is skipped. -/
def order_dedupe (cache : Option Cache) (userId : String) (idemKey : Option String)
    (orderHash : String) : Except Err (Option Cache) :=
  match cache with
  | none => .ok none
  | some c =>
      match idemKey with
      | some k =>
          let r := setnx_with_ttl c ("order:idempotency:" ++ userId ++ ":" ++ k)
          if r.1 then .ok (some r.2) else .error .duplicateOrder
      | none =>
          let r := setnx_with_ttl c ("order:hash:" ++ orderHash)
          if r.1 then .ok (some r.2) else .error .duplicateOrder

/-- Eligibility filter of _get_pending_buy_orders (matching_engine.py):
pending limit buys of the code with limit price ≥ tick price. -/
def eligibleBuy (code : String) (tick : ℚ) (o : Order) : Bool :=
  decide (o.code = code) && decide (o.status = OStatus.pending) &&
    decide (o.otype = OType.limit) && decide (o.side = Side.buy) &&
    decide (tick ≤ o.price.getD 0)

/-- Eligibility filter of _get_pending_sell_orders (matching_engine.py):
pending limit sells of the code with limit price ≤ tick price. -/
def eligibleSell (code : String) (tick : ℚ) (o : Order) : Bool :=
  decide (o.code = code) && decide (o.status = OStatus.pending) &&
    decide (o.otype = OType.limit) && decide (o.side = Side.sell) &&
    decide (o.price.getD 0 ≤ tick)

/-- Insertion into a list kept ascending by created_at. -/
def insertByCreated (o : Order) : List Order → List Order
  | [] => [o]
  | x :: xs =>
      if o.createdAt < x.createdAt then o :: x :: xs else x :: insertByCreated o xs

/-- ORDER BY created_at ascending of the matching queries. -/
def sortByCreated : List Order → List Order
  | [] => []
  | x :: xs => insertByCreated x (sortByCreated xs)

/-- Model of the buy-side pending query: eligible buys sorted by created_at ascending. -/
def get_pending_buy_orders (orders : List Order) (code : String) (tick : ℚ) :
    List Order :=
  sortByCreated (orders.filter (eligibleBuy code tick))

/-- Model of the sell-side pending query: eligible sells sorted by created_at ascending. -/
def get_pending_sell_orders (orders : List Order) (code : String) (tick : ℚ) :
    List Order :=
  sortByCreated (orders.filter (eligibleSell code tick))

/-- Success test of an execution attempt. -/
def isOk {ε α : Type} : Except ε α → Bool
  | .ok _ => true
  | .error _ => false

/-- Per-order try/except loop of process_ticker: every order of the batch is
attempted in order; a failure is swallowed and the loop continues; the
count of successful fills is returned together with the attempted orders. -/
def processBatch (exec : Order → ℚ → Except Unit Unit) (price : ℚ) :
    List Order → ℕ × List Order
  | [] => (0, [])
  | o :: rest =>
      let t := processBatch exec price rest
      match exec o price with
      | .ok _ => (t.1 + 1, o :: t.2)
      | .error _ => (t.1, o :: t.2)

/-- Model of process_ticker from matching_engine.py: falsy code or price returns 0;
otherwise the eligible buys and then the eligible sells are each executed at
the tick price. -/
def process_ticker (exec : Order → ℚ → Except Unit Unit) (orders : List Order)
    (code : Option String) (tick : ℚ) : ℕ :=
  match code with
  | none => 0
  | some c =>
      if c = "" ∨ tick = 0 then 0
      else
        (processBatch exec tick (get_pending_buy_orders orders c tick)).1 +
          (processBatch exec tick (get_pending_sell_orders orders c tick)).1

/-- Per-participant input of the leaderboard query (routers/competitions.py):
username, cash balance, position rows, order rows, trade count. -/
structure PRow where
  username : String
  balance : ℚ
  positions : List Position
  orders : List Order
  tradeCount : ℕ
deriving DecidableEq, Repr

/-- One leaderboard response entry (LeaderboardEntry). -/
structure LEntry where
  username : String
  total_asset : ℚ
  balance : ℚ
  coin_value : ℚ
  profit_rate : ℚ
  trade_count : ℕ
  rank : ℕ
deriving DecidableEq, Repr

/-- Coin valuation at the supplied prices (missing codes price 0 is the
caller's prices function). -/
def coinValue (prices : String → ℚ) (l : List Position) : ℚ :=
  (l.map (fun r => r.qty * prices r.code)).sum

/-- Cash or coin value bound in pending orders: buys at limit price plus
fee, sells at the current price of the code. -/
def pendingAmount (fr : ℚ) (prices : String → ℚ) (orders : List Order) : ℚ :=
  ((orders.filter (fun o => decide (o.status = OStatus.pending))).map (fun o =>
    match o.side with
    | .buy => o.price.getD 0 * o.qty + o.price.getD 0 * o.qty * fr
    | .sell => o.qty * prices o.code)).sum

/-- Leaderboard entry of one participant before ranking (get_leaderboard
body): total asset is balance + coin value + pending amount and the profit
rate is computed from it against the initial balance. -/
def mkEntry (fr init : ℚ) (prices : String → ℚ) (p : PRow) : LEntry :=
  let cv := coinValue prices p.positions
  let pa := pendingAmount fr prices p.orders
  let total := p.balance + cv + pa
  ⟨p.username, total, p.balance, cv, (total - init) / init * 100, p.tradeCount, 0⟩

/-- Insertion into a list kept descending by cash balance (the source's
`leaderboard.sort(key=balance, reverse=True)`). -/
def insertByBalance (e : LEntry) : List LEntry → List LEntry
  | [] => [e]
  | x :: xs => if x.balance < e.balance then e :: x :: xs else x :: insertByBalance e xs

/-- Sort of the leaderboard: by cash balance descending. -/
def sortByBalanceDesc : List LEntry → List LEntry
  | [] => []
  | x :: xs => insertByBalance x (sortByBalanceDesc xs)

/-- Rank assignment `rank := i + 1` by final list position. -/
def assignRanks : ℕ → List LEntry → List LEntry
  | _, [] => []
  | i, e :: es => { e with rank := i } :: assignRanks (i + 1) es

/-- Model of get_leaderboard from routers/competitions.py: per-participant entries,
sorted on cash balance alone descending, then ranked 1..n. -/
def get_leaderboard (fr init : ℚ) (prices : String → ℚ) (parts : List PRow) :
    List LEntry :=
  assignRanks 1 (sortByBalanceDesc (parts.map (mkEntry fr init prices)))

/-- Distinctness of Side constructors, for simp evaluation. -/
@[simp] theorem side_buy_ne_sell : Side.buy ≠ Side.sell := fun h => nomatch h

/-- Distinctness of Side constructors, for simp evaluation. -/
@[simp] theorem side_sell_ne_buy : Side.sell ≠ Side.buy := fun h => nomatch h

/-- Distinctness of OType constructors, for simp evaluation. -/
@[simp] theorem otype_market_ne_limit : OType.market ≠ OType.limit := fun h => nomatch h

/-- Distinctness of OType constructors, for simp evaluation. -/
@[simp] theorem otype_limit_ne_market : OType.limit ≠ OType.market := fun h => nomatch h

/-- Distinctness of OStatus constructors, for simp evaluation. -/
@[simp] theorem ostatus_pending_ne_filled : OStatus.pending ≠ OStatus.filled := fun h => nomatch h

/-- Distinctness of OStatus constructors, for simp evaluation. -/
@[simp] theorem ostatus_filled_ne_pending : OStatus.filled ≠ OStatus.pending := fun h => nomatch h

/-- Distinctness of OStatus constructors, for simp evaluation. -/
@[simp] theorem ostatus_pending_ne_cancelled : OStatus.pending ≠ OStatus.cancelled := fun h => nomatch h

/-- Distinctness of OStatus constructors, for simp evaluation. -/
@[simp] theorem ostatus_cancelled_ne_pending : OStatus.cancelled ≠ OStatus.pending := fun h => nomatch h

/-- Distinctness of OStatus constructors, for simp evaluation. -/
@[simp] theorem ostatus_filled_ne_cancelled : OStatus.filled ≠ OStatus.cancelled := fun h => nomatch h

/-- Distinctness of OStatus constructors, for simp evaluation. -/
@[simp] theorem ostatus_cancelled_ne_filled : OStatus.cancelled ≠ OStatus.filled := fun h => nomatch h

theorem costBasis_nil : costBasis [] = 0 := rfl

theorem costBasis_cons (r : Position) (l : List Position) :
    costBasis (r :: l) = r.qty * r.avg + costBasis l := by
  simp [costBasis]

theorem costBasis_append (l l' : List Position) :
    costBasis (l ++ l') = costBasis l + costBasis l' := by
  simp [costBasis]

theorem costBasis_upsert (code : String) (q p : ℚ) (l : List Position)
    (h0 : ∀ r ∈ l, 0 ≤ r.qty) (hq : 0 ≤ q) :
    costBasis (upsert_position code q p l) = costBasis l + q * p := by
  induction l with
  | nil => simp [upsert_position, costBasis]
  | cons r rs ih =>
      by_cases hc : r.code = code
      · simp only [upsert_position, if_pos hc, costBasis_cons]
        by_cases hpos : 0 < r.qty + q
        · simp only [if_pos hpos]
          have hne : r.qty + q ≠ 0 := ne_of_gt hpos
          field_simp
          ring
        · have hr : 0 ≤ r.qty := h0 r (List.mem_cons_self r rs)
          have hq0 : q = 0 := by
            rcases lt_or_eq_of_le hq with h | h
            · exact absurd (by linarith) hpos
            · exact h.symm
          have hr0 : r.qty = 0 := by
            rcases lt_or_eq_of_le hr with h | h
            · exact absurd (by linarith) hpos
            · exact h.symm
          rw [if_neg hpos, hq0, hr0]
          ring
      · simp only [upsert_position, if_neg hc, costBasis_cons,
          ih (fun x hx => h0 x (List.mem_cons_of_mem _ hx))]
        ring

theorem upsert_nonneg (code : String) (q p : ℚ) (l : List Position)
    (h0 : ∀ r ∈ l, 0 ≤ r.qty) (hq : 0 ≤ q) :
    ∀ r ∈ upsert_position code q p l, 0 ≤ r.qty := by
  induction l with
  | nil =>
      intro r hr
      simp only [upsert_position, List.mem_singleton] at hr
      subst hr; exact hq
  | cons r rs ih =>
      intro x hx
      by_cases hc : r.code = code
      · simp only [upsert_position, if_pos hc, List.mem_cons] at hx
        rcases hx with hx | hx
        · subst hx
          have hr : 0 ≤ r.qty := h0 r (List.mem_cons_self r rs)
          simpa using add_nonneg hr hq
        · exact h0 x (List.mem_cons_of_mem _ hx)
      · simp only [upsert_position, if_neg hc, List.mem_cons] at hx
        rcases hx with hx | hx
        · subst hx; exact h0 x (List.mem_cons_self x rs)
        · exact ih (fun y hy => h0 y (List.mem_cons_of_mem _ hy)) x hx

theorem costBasis_adjQty (code : String) (d : ℚ) (l : List Position)
    (r : Position) (h : getPosition code l = some r) :
    costBasis (adjQty code d l) = costBasis l + d * r.avg := by
  induction l with
  | nil => simp [getPosition] at h
  | cons x xs ih =>
      by_cases hc : x.code = code
      · rw [getPosition, List.find?_cons_of_pos _ (by simpa using hc)] at h
        injection h with h
        subst h
        simp only [adjQty, if_pos hc, costBasis_cons]
        ring
      · rw [getPosition, List.find?_cons_of_neg _ (by simpa using hc)] at h
        simp only [adjQty, if_neg hc, costBasis_cons, ih h]
        ring

theorem adjQty_nonneg (code : String) (d : ℚ) (l : List Position)
    (r : Position) (h : getPosition code l = some r) (hd : 0 ≤ r.qty + d)
    (h0 : ∀ x ∈ l, 0 ≤ x.qty) :
    ∀ x ∈ adjQty code d l, 0 ≤ x.qty := by
  induction l with
  | nil => simp [getPosition] at h
  | cons x xs ih =>
      intro y hy
      by_cases hc : x.code = code
      · rw [getPosition, List.find?_cons_of_pos _ (by simpa using hc)] at h
        injection h with h
        subst h
        simp only [adjQty, if_pos hc, List.mem_cons] at hy
        rcases hy with hy | hy
        · subst hy; exact hd
        · exact h0 y (List.mem_cons_of_mem _ hy)
      · rw [getPosition, List.find?_cons_of_neg _ (by simpa using hc)] at h
        simp only [adjQty, if_neg hc, List.mem_cons] at hy
        rcases hy with hy | hy
        · subst hy; exact h0 y (List.mem_cons_self y xs)
        · exact ih h (fun z hz => h0 z (List.mem_cons_of_mem _ hz)) y hy

theorem getPosition_adjQty (code : String) (d : ℚ) (l : List Position) :
    getPosition code (adjQty code d l) =
      (getPosition code l).map (fun r => { r with qty := r.qty + d }) := by
  induction l with
  | nil => simp [getPosition, adjQty]
  | cons x xs ih =>
      by_cases hc : x.code = code
      · simp [adjQty, if_pos hc, getPosition, hc]
      · simp only [adjQty, if_neg hc, getPosition] at ih ⊢
        rw [List.find?_cons_of_neg _ (by simpa using hc),
          List.find?_cons_of_neg _ (by simpa using hc)]
        exact ih

theorem costBasis_cleanup (code : String) (l : List Position) :
    costBasis (cleanup_zero_positions code l) = costBasis l - deletedCost code l := by
  induction l with
  | nil => simp [cleanup_zero_positions, deletedCost, costBasis]
  | cons x xs ih =>
      simp only [cleanup_zero_positions, deletedCost, List.filter_cons] at ih ⊢
      by_cases hdel : x.code = code ∧ x.qty ≤ EPS
      · have hd : decide (x.code = code ∧ x.qty ≤ EPS) = true := by simpa using hdel
        simp [hd, costBasis_cons] at ih ⊢
        linarith [ih]
      · have hd : decide (x.code = code ∧ x.qty ≤ EPS) = false := by simpa using hdel
        simp [hd, costBasis_cons] at ih ⊢
        linarith [ih]

theorem cleanup_subset (code : String) (l : List Position) :
    ∀ x ∈ cleanup_zero_positions code l, x ∈ l := by
  intro x hx
  exact List.mem_of_mem_filter hx

theorem mapSum_append (g : Order → ℚ) (l : List Order) (o : Order) :
    ((l ++ [o]).map g).sum = (l.map g).sum + g o := by
  simp

theorem mapSum_updateOrd (g : Order → ℚ) (f : Order → Order) (oid : ℕ)
    (l : List Order) (o : Order)
    (h : l.find? (fun x => x.oid = oid) = some o) :
    ((updateOrd oid f l).map g).sum = (l.map g).sum + (g (f o) - g o) := by
  induction l with
  | nil => simp at h
  | cons x xs ih =>
      by_cases hc : x.oid = oid
      · rw [List.find?_cons_of_pos _ (by simpa using hc)] at h
        injection h with h
        subst h
        simp only [updateOrd, if_pos hc, List.map_cons, List.sum_cons]
        ring
      · rw [List.find?_cons_of_neg _ (by simpa using hc)] at h
        simp only [updateOrd, if_neg hc, List.map_cons, List.sum_cons, ih h]
        ring

theorem find?_updateOrd (f : Order → Order) (oid : ℕ) (l : List Order)
    (o : Order) (h : l.find? (fun x => x.oid = oid) = some o)
    (hf : (f o).oid = o.oid) :
    (updateOrd oid f l).find? (fun x => x.oid = oid) = some (f o) := by
  induction l with
  | nil => simp at h
  | cons x xs ih =>
      by_cases hc : x.oid = oid
      · rw [List.find?_cons_of_pos _ (by simpa using hc)] at h
        injection h with h
        subst h
        simp only [updateOrd, if_pos hc]
        exact List.find?_cons_of_pos _ (by simpa [hf] using hc)
      · rw [List.find?_cons_of_neg _ (by simpa using hc)] at h
        simp only [updateOrd, if_neg hc]
        rw [List.find?_cons_of_neg _ (by simpa using hc)]
        exact ih h

theorem mem_updateOrd (f : Order → Order) (oid : ℕ) (l : List Order) :
    ∀ x ∈ updateOrd oid f l, x ∈ l ∨ ∃ o ∈ l, x = f o := by
  induction l with
  | nil => simp [updateOrd]
  | cons y ys ih =>
      intro x hx
      by_cases hc : y.oid = oid
      · simp only [updateOrd, if_pos hc, List.mem_cons] at hx
        rcases hx with hx | hx
        · exact Or.inr ⟨y, List.mem_cons_self y ys, hx⟩
        · exact Or.inl (List.mem_cons_of_mem _ hx)
      · simp only [updateOrd, if_neg hc, List.mem_cons] at hx
        rcases hx with hx | hx
        · exact Or.inl (hx ▸ List.mem_cons_self y ys)
        · rcases ih x hx with h | ⟨o, ho, hfo⟩
          · exact Or.inl (List.mem_cons_of_mem _ h)
          · exact Or.inr ⟨o, List.mem_cons_of_mem _ ho, hfo⟩

theorem cmo_err (fr : ℚ) (code : String) (side : Side) (q c : ℚ) (s : St)
    (err : Err) (h : create_market_order fr code side q c s = .error err) :
    ghostMarket s code side q c = 0 := by
  simp only [create_market_order] at h
  by_cases hv : validate_price code c = false
  · simp [ghostMarket, hv]
  · rw [if_neg hv] at h
    cases side with
    | buy => simp [ghostMarket, hv]
    | sell =>
        cases hg : getPosition code s.positions with
        | none => simp [ghostMarket, hv, hg]
        | some r =>
            by_cases hlt : r.qty < q
            · simp [ghostMarket, hv, hg, hlt]
            · rw [hg] at h
              simp [hlt] at h

theorem cmo_ok (fr : ℚ) (code : String) (side : Side) (q c : ℚ) (s : St)
    (s1 : St) (o : Order) (hwf : Wf s) (hq : 0 ≤ q)
    (h : create_market_order fr code side q c s = .ok (s1, o)) :
    led fr s1 = led fr s + ghostMarket s code side q c ∧ Wf s1 := by
  obtain ⟨hpos, hoq, hoid⟩ := hwf
  simp only [create_market_order] at h
  by_cases hv : validate_price code c = false
  · rw [if_pos hv] at h; exact nomatch h
  · rw [if_neg hv] at h
    cases side with
    | buy =>
        by_cases hb : s.balance < c * q + c * q * fr
        · simp only [hb, if_true, reduceIte] at h
          exact nomatch h
        · simp only [hb, if_false, reduceIte] at h
          simp only [Except.ok.injEq, Prod.mk.injEq] at h
          obtain ⟨hs1, _⟩ := h
          subst hs1
          constructor
          · simp only [led, reservedBuy, cumFees, ghostMarket, if_neg hv]
            rw [mapSum_append, mapSum_append, costBasis_upsert code q c s.positions hpos hq]
            have h1 : resContrib fr
                ⟨s.nextId, code, .buy, .market, none, q, q, some c, c * q * fr, .filled,
                  s.nextId⟩ = 0 := by
              simp [resContrib]
            have h2 : feeContrib
                ⟨s.nextId, code, .buy, .market, none, q, q, some c, c * q * fr, .filled,
                  s.nextId⟩ = c * q * fr := by
              simp [feeContrib]
            rw [h1, h2]
            ring
          · refine ⟨upsert_nonneg code q c s.positions hpos hq, ?_, ?_⟩
            · intro x hx
              rcases List.mem_append.mp hx with hx | hx
              · exact hoq x hx
              · rw [List.mem_singleton.mp hx]; exact hq
            · intro x hx
              rcases List.mem_append.mp hx with hx | hx
              · exact Nat.lt_succ_of_lt (hoid x hx)
              · rw [List.mem_singleton.mp hx]; exact Nat.lt_succ_self _
    | sell =>
        cases hg : getPosition code s.positions with
        | none => rw [hg] at h; exact nomatch h
        | some r =>
            rw [hg] at h
            by_cases hlt : r.qty < q
            · simp only [hlt, if_true, reduceIte] at h
              exact nomatch h
            · simp only [hlt, if_false, reduceIte] at h
              simp only [Except.ok.injEq, Prod.mk.injEq] at h
              obtain ⟨hs1, _⟩ := h
              subst hs1
              constructor
              · simp only [led, reservedBuy, cumFees, ghostMarket, if_neg hv, hg]
                rw [mapSum_append, mapSum_append, costBasis_cleanup,
                  costBasis_adjQty code (-q) s.positions r hg]
                have h1 : resContrib fr
                    ⟨s.nextId, code, .sell, .market, none, q, q, some c, c * q * fr, .filled,
                      s.nextId⟩ = 0 := by
                  simp [resContrib]
                have h2 : feeContrib
                    ⟨s.nextId, code, .sell, .market, none, q, q, some c, c * q * fr, .filled,
                      s.nextId⟩ = c * q * fr := by
                  simp [feeContrib]
                rw [h1, h2]
                simp only [hlt, if_false, reduceIte]
                ring
              · have hadj : ∀ x ∈ adjQty code (-q) s.positions, 0 ≤ x.qty :=
                  adjQty_nonneg code (-q) s.positions r hg (by linarith [not_lt.mp hlt]) hpos
                refine ⟨?_, ?_, ?_⟩
                · intro x hx
                  exact hadj x (cleanup_subset code _ x hx)
                · intro x hx
                  rcases List.mem_append.mp hx with hx | hx
                  · exact hoq x hx
                  · rw [List.mem_singleton.mp hx]; exact hq
                · intro x hx
                  rcases List.mem_append.mp hx with hx | hx
                  · exact Nat.lt_succ_of_lt (hoid x hx)
                  · rw [List.mem_singleton.mp hx]; exact Nat.lt_succ_self _

theorem lr_err (fr : ℚ) (code : String) (side : Side) (q p : ℚ) (s : St)
    (err : Err) (h : limit_reserve fr code side q p s = .error err) :
    ghostReserve s code side q = 0 := by
  simp only [limit_reserve] at h
  cases side with
  | buy => simp [ghostReserve]
  | sell =>
      cases hg : getPosition code s.positions with
      | none => simp [ghostReserve, hg]
      | some r =>
          by_cases hlt : r.qty < q
          · simp [ghostReserve, hg, hlt]
          · rw [hg] at h
            simp [hlt] at h

theorem lr_ok (fr : ℚ) (code : String) (side : Side) (q p : ℚ) (s : St)
    (s1 : St) (o : Order) (hwf : Wf s) (hq : 0 ≤ q)
    (h : limit_reserve fr code side q p s = .ok (s1, o)) :
    led fr s1 = led fr s + ghostReserve s code side q ∧ Wf s1 := by
  obtain ⟨hpos, hoq, hoid⟩ := hwf
  simp only [limit_reserve] at h
  cases side with
  | buy =>
      by_cases hb : s.balance < p * q + p * q * fr
      · simp only [hb, if_true, reduceIte] at h
        exact nomatch h
      · simp only [hb, if_false, reduceIte] at h
        simp only [Except.ok.injEq, Prod.mk.injEq] at h
        obtain ⟨hs1, _⟩ := h
        subst hs1
        constructor
        · simp only [led, reservedBuy, cumFees, ghostReserve]
          rw [mapSum_append, mapSum_append]
          have h1 : resContrib fr
              ⟨s.nextId, code, .buy, .limit, some p, q, 0, none, 0, .pending, s.nextId⟩ =
                p * q + p * q * fr := by
            simp [resContrib]
          have h2 : feeContrib
              ⟨s.nextId, code, .buy, .limit, some p, q, 0, none, 0, .pending, s.nextId⟩ = 0 := by
            simp [feeContrib]
          rw [h1, h2]
          ring
        · refine ⟨hpos, ?_, ?_⟩
          · intro x hx
            rcases List.mem_append.mp hx with hx | hx
            · exact hoq x hx
            · rw [List.mem_singleton.mp hx]; exact hq
          · intro x hx
            rcases List.mem_append.mp hx with hx | hx
            · exact Nat.lt_succ_of_lt (hoid x hx)
            · rw [List.mem_singleton.mp hx]; exact Nat.lt_succ_self _
  | sell =>
      cases hg : getPosition code s.positions with
      | none => rw [hg] at h; exact nomatch h
      | some r =>
          rw [hg] at h
          by_cases hlt : r.qty < q
          · simp only [hlt, if_true, reduceIte] at h
            exact nomatch h
          · simp only [hlt, if_false, reduceIte] at h
            simp only [Except.ok.injEq, Prod.mk.injEq] at h
            obtain ⟨hs1, _⟩ := h
            subst hs1
            constructor
            · simp only [led, reservedBuy, cumFees, ghostReserve, hg]
              rw [mapSum_append, mapSum_append, costBasis_adjQty code (-q) s.positions r hg]
              have h1 : resContrib fr
                  ⟨s.nextId, code, .sell, .limit, some p, q, 0, none, 0, .pending,
                    s.nextId⟩ = 0 := by
                simp [resContrib]
              have h2 : feeContrib
                  ⟨s.nextId, code, .sell, .limit, some p, q, 0, none, 0, .pending,
                    s.nextId⟩ = 0 := by
                simp [feeContrib]
              rw [h1, h2]
              simp only [hlt, if_false, reduceIte]
              ring
            · refine ⟨?_, ?_, ?_⟩
              · exact adjQty_nonneg code (-q) s.positions r hg
                  (by linarith [not_lt.mp hlt]) hpos
              · intro x hx
                rcases List.mem_append.mp hx with hx | hx
                · exact hoq x hx
                · rw [List.mem_singleton.mp hx]; exact hq
              · intro x hx
                rcases List.mem_append.mp hx with hx | hx
                · exact Nat.lt_succ_of_lt (hoid x hx)
                · rw [List.mem_singleton.mp hx]; exact Nat.lt_succ_self _

theorem wf_orders_updateOrd (l : List Order) (oid n : ℕ) (f : Order → Order)
    (hq : ∀ o ∈ l, 0 ≤ o.qty) (hid : ∀ o ∈ l, o.oid < n)
    (hfq : ∀ o, (f o).qty = o.qty) (hfid : ∀ o, (f o).oid = o.oid) :
    (∀ o ∈ updateOrd oid f l, 0 ≤ o.qty) ∧ (∀ o ∈ updateOrd oid f l, o.oid < n) := by
  constructor <;> intro x hx <;> rcases mem_updateOrd f oid l x hx with h | ⟨o, ho, rfl⟩
  · exact hq x h
  · rw [hfq o]; exact hq o ho
  · exact hid x h
  · rw [hfid o]; exact hid o ho

theorem cancel_err (fr : ℚ) (oid : ℕ) (s : St) (err : Err)
    (h : cancel_order fr oid s = .error err) :
    ghostDelta fr s (.cancel oid) = 0 := by
  simp only [cancel_order] at h
  cases hf : s.orders.find? (fun o => o.oid = oid) with
  | none => simp [ghostDelta, hf]
  | some o =>
      rw [hf] at h
      simp only [ne_eq] at h
      by_cases hst : o.status = OStatus.pending
      · by_cases hty : o.otype = OType.limit
        · rw [if_neg (by simp [hst])] at h
          rw [if_neg (by simp [hty])] at h
          cases hside : o.side with
          | buy => rw [hside] at h; exact nomatch h
          | sell =>
              rw [hside] at h
              cases hg : getPosition o.code s.positions with
              | some r => rw [hg] at h; exact nomatch h
              | none => rw [hg] at h; exact nomatch h
        · simp [ghostDelta, hf, hst, hty]
      · simp [ghostDelta, hf, hst]

theorem cancel_ok (fr : ℚ) (oid : ℕ) (s : St) (s1 : St) (hwf : Wf s)
    (h : cancel_order fr oid s = .ok s1) :
    led fr s1 = led fr s + ghostDelta fr s (.cancel oid) ∧ Wf s1 := by
  obtain ⟨hpos, hoq, hoid⟩ := hwf
  simp only [cancel_order] at h
  cases hf : s.orders.find? (fun o => o.oid = oid) with
  | none => rw [hf] at h; exact nomatch h
  | some o =>
      rw [hf] at h
      simp only [ne_eq] at h
      have homem : o ∈ s.orders := List.mem_of_find?_eq_some hf
      by_cases hst' : o.status = OStatus.pending
      · by_cases hty' : o.otype = OType.limit
        · rw [if_neg (by simp [hst'])] at h
          rw [if_neg (by simp [hty'])] at h
          have hwfo := wf_orders_updateOrd s.orders oid s.nextId
            (fun x => { x with status := .cancelled }) hoq hoid (fun _ => rfl) (fun _ => rfl)
          cases hside : o.side with
          | buy =>
              rw [hside] at h
              simp only [Except.ok.injEq] at h
              subst h
              constructor
              · simp only [led, reservedBuy, cumFees, ghostDelta, hf, hst', hty', hside]
                rw [mapSum_updateOrd (resContrib fr) _ oid s.orders o hf,
                  mapSum_updateOrd feeContrib _ oid s.orders o hf]
                have h1 : resContrib fr { o with status := .cancelled } = 0 := by
                  simp [resContrib]
                have h2 : resContrib fr o =
                    o.price.getD 0 * o.qty + o.price.getD 0 * o.qty * fr := by
                  simp [resContrib, hst', hty', hside]
                have h3 : feeContrib { o with status := .cancelled } = 0 := by
                  simp [feeContrib]
                have h4 : feeContrib o = 0 := by
                  simp [feeContrib, hst']
                rw [h1, h2, h3, h4]
                simp
                ring
              · exact ⟨hpos, hwfo.1, hwfo.2⟩
          | sell =>
              rw [hside] at h
              have h1 : resContrib fr { o with status := .cancelled } = 0 := by
                simp [resContrib]
              have h2 : resContrib fr o = 0 := by
                simp [resContrib, hside]
              have h3 : feeContrib { o with status := .cancelled } = 0 := by
                simp [feeContrib]
              have h4 : feeContrib o = 0 := by
                simp [feeContrib, hst']
              cases hg : getPosition o.code s.positions with
              | some r =>
                  rw [hg] at h
                  simp only [Except.ok.injEq] at h
                  subst h
                  have hrmem : r ∈ s.positions :=
                    List.mem_of_find?_eq_some (by simpa [getPosition] using hg)
                  constructor
                  · simp only [led, reservedBuy, cumFees, ghostDelta, hf, hst', hty',
                      hside, hg]
                    rw [mapSum_updateOrd (resContrib fr) _ oid s.orders o hf,
                      mapSum_updateOrd feeContrib _ oid s.orders o hf,
                      costBasis_adjQty o.code o.qty s.positions r hg, h1, h2, h3, h4]
                    simp
                    ring
                  · refine ⟨?_, hwfo.1, hwfo.2⟩
                    exact adjQty_nonneg o.code o.qty s.positions r hg
                      (add_nonneg (hpos r hrmem) (hoq o homem)) hpos
              | none =>
                  rw [hg] at h
                  simp only [Except.ok.injEq] at h
                  subst h
                  constructor
                  · simp only [led, reservedBuy, cumFees, ghostDelta, hf, hst', hty',
                      hside, hg]
                    rw [mapSum_updateOrd (resContrib fr) _ oid s.orders o hf,
                      mapSum_updateOrd feeContrib _ oid s.orders o hf,
                      costBasis_append, h1, h2, h3, h4]
                    simp [costBasis]
                    ring
                  · refine ⟨?_, hwfo.1, hwfo.2⟩
                    intro x hx
                    rcases List.mem_append.mp hx with hx | hx
                    · exact hpos x hx
                    · rw [List.mem_singleton.mp hx]
                      exact hoq o homem
        · rw [if_neg (by simp [hst'])] at h
          rw [if_pos hty'] at h
          exact nomatch h
      · rw [if_pos hst'] at h
        exact nomatch h

theorem exec_err (fr : ℚ) (oid : ℕ) (e : ℚ) (s : St) (err : Err)
    (h : engine_execute fr oid e s = .error err) :
    ghostDelta fr s (.exec oid e) = 0 := by
  simp only [engine_execute] at h
  split at h
  · rename_i hf
    simp [ghostDelta, hf]
  · rename_i o hf
    split at h
    · rename_i hel
      simp only [execute_limit_order] at h
      by_cases hv : validate_price o.code e = false
      · simp [ghostDelta, hf, hel, hv]
      · rw [if_neg hv] at h
        cases hside : o.side with
        | buy => rw [hside] at h; exact nomatch h
        | sell => rw [hside] at h; exact nomatch h
    · rename_i hel
      simp [ghostDelta, hf, hel]

theorem exec_ok (fr : ℚ) (oid : ℕ) (e : ℚ) (s : St) (s1 : St) (hwf : Wf s)
    (h : engine_execute fr oid e s = .ok s1) :
    led fr s1 = led fr s + ghostDelta fr s (.exec oid e) ∧ Wf s1 := by
  obtain ⟨hpos, hoq, hoid⟩ := hwf
  simp only [engine_execute] at h
  split at h
  · rename_i hf
    exact nomatch h
  · rename_i o hf
    have homem : o ∈ s.orders := List.mem_of_find?_eq_some hf
    have hoideq : o.oid = oid := by simpa using List.find?_some hf
    split at h
    · rename_i hel
      obtain ⟨hst, hty, hbe, hse⟩ := hel
      simp only [execute_limit_order] at h
      by_cases hv : validate_price o.code e = false
      · rw [if_pos hv] at h; exact nomatch h
      · rw [if_neg hv] at h
        cases hside : o.side with
        | buy =>
            rw [hside] at h
            simp only [Except.ok.injEq] at h
            subst h
            have hfq : ∀ x : Order, (fillOrd e (e * x.qty * fr) x).qty = x.qty := fun _ => rfl
            have hwfo := wf_orders_updateOrd s.orders o.oid s.nextId
              (fillOrd e (e * o.qty * fr)) hoq hoid (fun _ => rfl) (fun _ => rfl)
            constructor
            · simp only [led, reservedBuy, cumFees, ghostDelta, hf]
              rw [mapSum_updateOrd (resContrib fr) _ o.oid s.orders o (hoideq ▸ hf),
                mapSum_updateOrd feeContrib _ o.oid s.orders o (hoideq ▸ hf),
                costBasis_upsert o.code o.qty e s.positions hpos (hoq o homem)]
              have h1 : resContrib fr (fillOrd e (e * o.qty * fr) o) = 0 := by
                simp [resContrib, fillOrd]
              have h2 : resContrib fr o =
                  o.price.getD 0 * o.qty + o.price.getD 0 * o.qty * fr := by
                simp [resContrib, hst, hty, hside]
              have h3 : feeContrib (fillOrd e (e * o.qty * fr) o) = e * o.qty * fr := by
                simp [feeContrib, fillOrd]
              have h4 : feeContrib o = 0 := by
                simp [feeContrib, hst]
              rw [h1, h2, h3, h4]
              have hle : e ≤ o.price.getD 0 := hbe hside
              have hrefund : (if 0 < o.price.getD 0 - e then (o.price.getD 0 - e) * o.qty
                  else 0) = (o.price.getD 0 - e) * o.qty := by
                by_cases hpe : 0 < o.price.getD 0 - e
                · rw [if_pos hpe]
                · rw [if_neg hpe]
                  have : o.price.getD 0 - e = 0 := by linarith [not_lt.mp hpe]
                  rw [this]; ring
              rw [hrefund]
              simp only [hst, hty, hside, hv, if_neg, ite_false, if_false,
                Bool.false_eq_true, reduceIte]
              simp only [true_and, forall_true_left]
              split
              · split
                · simp_all
                · ring
              · simp_all
            · exact ⟨upsert_nonneg o.code o.qty e s.positions hpos (hoq o homem),
                hwfo.1, hwfo.2⟩
        | sell =>
            rw [hside] at h
            simp only [Except.ok.injEq] at h
            subst h
            have hwfo := wf_orders_updateOrd s.orders o.oid s.nextId
              (fillOrd e (e * o.qty * fr)) hoq hoid (fun _ => rfl) (fun _ => rfl)
            constructor
            · simp only [led, reservedBuy, cumFees, ghostDelta, hf]
              rw [mapSum_updateOrd (resContrib fr) _ o.oid s.orders o (hoideq ▸ hf),
                mapSum_updateOrd feeContrib _ o.oid s.orders o (hoideq ▸ hf),
                costBasis_cleanup]
              have h1 : resContrib fr (fillOrd e (e * o.qty * fr) o) = 0 := by
                simp [resContrib, fillOrd]
              have h2 : resContrib fr o = 0 := by
                simp [resContrib, hside]
              have h3 : feeContrib (fillOrd e (e * o.qty * fr) o) = e * o.qty * fr := by
                simp [feeContrib, fillOrd]
              have h4 : feeContrib o = 0 := by
                simp [feeContrib, hst]
              rw [h1, h2, h3, h4]
              simp only [hst, hty, hside, hv, if_neg, ite_false, if_false,
                Bool.false_eq_true, reduceIte]
              simp only [true_and, forall_true_left]
              split
              · split
                · simp_all
                · ring
              · simp_all
            · refine ⟨?_, hwfo.1, hwfo.2⟩
              intro x hx
              exact hpos x (cleanup_subset o.code s.positions x hx)
    · rename_i hel
      exact nomatch h

theorem step_spec (fr : ℚ) (s : St) (op : Op) (hwf : Wf s) (hq : 0 ≤ opQty op) :
    led fr (step fr s op) = led fr s + ghostDelta fr s op ∧ Wf (step fr s op) := by
  cases op with
  | market code side q c =>
      have hq' : 0 ≤ q := by simpa [opQty] using hq
      cases hr : create_market_order fr code side q c s with
      | ok res =>
          simp only [step, hr, ghostDelta]
          exact cmo_ok fr code side q c s res.1 res.2 hwf hq' (by rw [hr])
      | error err =>
          simp only [step, hr, ghostDelta]
          rw [cmo_err fr code side q c s err hr]
          exact ⟨by ring, hwf⟩
  | limit code side q p cur =>
      have hq' : 0 ≤ q := by simpa [opQty] using hq
      simp only [step, ghostDelta, create_limit_order]
      by_cases hv : validate_price code p = false
      · rw [if_pos hv, if_pos hv]
        exact ⟨by ring, hwf⟩
      · rw [if_neg hv, if_neg hv]
        cases cur with
        | none =>
            dsimp only
            cases hr : limit_reserve fr code side q p s with
            | ok res =>
                simp only [hr]
                exact lr_ok fr code side q p s res.1 res.2 hwf hq' (by rw [hr])
            | error err =>
                simp only [hr]
                rw [lr_err fr code side q p s err hr]
                exact ⟨by ring, hwf⟩
        | some m =>
            dsimp only
            by_cases hd : validate_price_against_market p m = false
            · rw [if_pos hd, if_pos hd]
              exact ⟨by ring, hwf⟩
            · rw [if_neg hd, if_neg hd]
              by_cases hc : (side = Side.buy ∧ m ≤ p) ∨ (side = Side.sell ∧ p ≤ m)
              · rw [if_pos hc, if_pos hc]
                cases hr : create_market_order fr code side q m s with
                | ok res =>
                    simp only [hr]
                    exact cmo_ok fr code side q m s res.1 res.2 hwf hq' (by rw [hr])
                | error err =>
                    simp only [hr]
                    rw [cmo_err fr code side q m s err hr]
                    exact ⟨by ring, hwf⟩
              · rw [if_neg hc, if_neg hc]
                cases hr : limit_reserve fr code side q p s with
                | ok res =>
                    simp only [hr]
                    exact lr_ok fr code side q p s res.1 res.2 hwf hq' (by rw [hr])
                | error err =>
                    simp only [hr]
                    rw [lr_err fr code side q p s err hr]
                    exact ⟨by ring, hwf⟩
  | cancel oid =>
      cases hr : cancel_order fr oid s with
      | ok s1 =>
          simp only [step, hr]
          exact cancel_ok fr oid s s1 hwf hr
      | error err =>
          simp only [step, hr]
          rw [cancel_err fr oid s err hr]
          exact ⟨by ring, hwf⟩
  | exec oid e =>
      cases hr : engine_execute fr oid e s with
      | ok s1 =>
          simp only [step, hr]
          exact exec_ok fr oid e s s1 hwf hr
      | error err =>
          simp only [step, hr]
          rw [exec_err fr oid e s err hr]
          exact ⟨by ring, hwf⟩

theorem wf_init (b0 : ℚ) : Wf (initSt b0) := by
  refine ⟨?_, ?_, ?_⟩ <;> intro x hx <;> simp [initSt] at hx

theorem foldl_led (fr : ℚ) (ops : List Op) :
    ∀ s : St, Wf s → (∀ op ∈ ops, 0 ≤ opQty op) →
      led fr (ops.foldl (step fr) s) = led fr s + ghostSum fr s ops := by
  induction ops with
  | nil => intro s _ _; simp [ghostSum]
  | cons op ops ih =>
      intro s hwf hq
      have h1 := step_spec fr s op hwf (hq op (List.mem_cons_self op ops))
      simp only [List.foldl_cons, ghostSum]
      rw [ih (step fr s op) h1.2 (fun x hx => hq x (List.mem_cons_of_mem _ hx)), h1.1]
      ring

/-- Claim C3 (counterexample): the reservation equality fails on the code.
After a market buy of 100 KRW-XRP at 1000 and a non-crossing limit sell of
the full 100 at 1200 (fee 0.0005, initial balance 1,000,000), reserved
pending-buy cash + balance + cost basis is 899,950 but initial − fees is
999,950: reserving coin for the pending sell removed its cost basis from
the ledger with no compensating term. -/
theorem c3_counterexample :
    reservedBuy (1 / 2000) c3St + c3St.balance + costBasis c3St.positions ≠
      1000000 - cumFees c3St := by
  norm_num [c3St, c3ops, run, step, create_market_order, create_limit_order, limit_reserve,
    validate_price, PRICE_RANGES, validate_price_against_market, getPosition, adjQty,
    upsert_position, cleanup_zero_positions, costBasis, deletedCost, initSt, reservedBuy,
    resContrib, cumFees, feeContrib, EPS, MAX_PRICE_DEVIATION]

/-- Claim C3 (amended): for every sequence of order operations with
nonnegative quantities, starting from a fresh join, the cash reserved by
pending buy limit orders plus the cash balance plus the cost basis of live
positions equals initial_balance minus the cumulative fees of filled
orders plus the accumulated ledger drift `ghostSum` of the run, whose
per-operation value (ghostDelta) is zero exactly for market buys and
limit-buy reservations/cancels; sells realize P&L, limit-sell
reservations/cancels move cost basis in and out of the ledger, ε-cleanup
drops residual cost, and a limit buy filled below its limit price leaks
the unrefunded fee reserve. -/
theorem c3_conservation_with_drift (fr b0 : ℚ) (ops : List Op)
    (hq : ∀ op ∈ ops, 0 ≤ opQty op) :
    reservedBuy fr (run fr b0 ops) + (run fr b0 ops).balance +
      costBasis (run fr b0 ops).positions
      = b0 - cumFees (run fr b0 ops) + ghostSum fr (initSt b0) ops := by
  have h := foldl_led fr ops (initSt b0) (wf_init b0) hq
  simp only [run]
  have hinit : led fr (initSt b0) = b0 := by
    simp [led, initSt, reservedBuy, cumFees, costBasis]
  rw [hinit] at h
  simp only [led] at h
  linarith [h]

/-- Claim C3 (witness): the amended conservation law evaluated on a
concrete one-buy run. -/
theorem c3_witness :
    (∀ op ∈ [Op.market "KRW-XRP" Side.buy 10 1000], 0 ≤ opQty op) ∧
    reservedBuy (1 / 2000) (run (1 / 2000) 1000000 [Op.market "KRW-XRP" Side.buy 10 1000]) +
        (run (1 / 2000) 1000000 [Op.market "KRW-XRP" Side.buy 10 1000]).balance +
        costBasis (run (1 / 2000) 1000000 [Op.market "KRW-XRP" Side.buy 10 1000]).positions
      = 1000000 -
          cumFees (run (1 / 2000) 1000000 [Op.market "KRW-XRP" Side.buy 10 1000]) +
          ghostSum (1 / 2000) (initSt 1000000) [Op.market "KRW-XRP" Side.buy 10 1000] :=
  ⟨by norm_num [opQty],
   c3_conservation_with_drift (1 / 2000) 1000000 _ (by norm_num [opQty])⟩

/-- Claim C4 (counterexample): after create_limit_order reserves the whole
position for a sell, the position row is still stored with quantity 0 ≤ ε —
the sell-reservation path never calls cleanup_zero_positions. -/
theorem c4_counterexample :
    (⟨"KRW-XRP", 0, 1000⟩ : Position) ∈ c4St.positions ∧ (0 : ℚ) ≤ EPS := by
  constructor
  · norm_num [c4St, run, step, create_market_order, create_limit_order, limit_reserve,
      validate_price, PRICE_RANGES, getPosition, adjQty, upsert_position,
      cleanup_zero_positions, initSt, EPS]
  · norm_num [EPS]

/-- Claim C4 (amended): cleanup_zero_positions deletes exactly the rows of
the given code with quantity ≤ ε, and the operations that invoke it — a
market sell and an executed limit sell — leave no row of the traded code
with quantity ≤ ε; but the sell-reservation path of create_limit_order does
not invoke it and can leave a row with quantity ≤ ε (see the
counterexample). -/
theorem c4_cleanup_invariant :
    (∀ (code : String) (l : List Position) (r : Position),
        r ∈ cleanup_zero_positions code l ↔ r ∈ l ∧ ¬(r.code = code ∧ r.qty ≤ EPS)) ∧
    (∀ (fr : ℚ) (code : String) (q c : ℚ) (s s1 : St) (o : Order),
        create_market_order fr code .sell q c s = .ok (s1, o) →
        ∀ r ∈ s1.positions, r.code = code → EPS < r.qty) ∧
    (∀ (fr : ℚ) (o : Order) (e : ℚ) (s s1 : St),
        execute_limit_order fr o e s = .ok s1 → o.side = .sell →
        ∀ r ∈ s1.positions, r.code = o.code → EPS < r.qty) := by
  refine ⟨?_, ?_, ?_⟩
  · intro code l r
    simp only [cleanup_zero_positions, List.mem_filter, Bool.not_eq_true',
      decide_eq_false_iff_not]
  · intro fr code q c s s1 o h r hr hcode
    simp only [create_market_order] at h
    by_cases hv : validate_price code c = false
    · rw [if_pos hv] at h; exact nomatch h
    · rw [if_neg hv] at h
      cases hg : getPosition code s.positions with
      | none => rw [hg] at h; exact nomatch h
      | some r0 =>
          rw [hg] at h
          by_cases hlt : r0.qty < q
          · simp only [hlt, if_true, reduceIte] at h
            exact nomatch h
          · simp only [hlt, if_false, reduceIte] at h
            simp only [Except.ok.injEq, Prod.mk.injEq] at h
            obtain ⟨hs1, _⟩ := h
            subst hs1
            simp only [cleanup_zero_positions, List.mem_filter] at hr
            have := hr.2
            simp only [Bool.not_eq_true', decide_eq_false_iff_not] at this
            rcases not_and_or.mp this with hx | hx
            · exact absurd hcode hx
            · exact lt_of_not_le hx
  · intro fr o e s s1 h hside r hr hcode
    simp only [execute_limit_order] at h
    by_cases hv : validate_price o.code e = false
    · rw [if_pos hv] at h; exact nomatch h
    · rw [if_neg hv] at h
      rw [hside] at h
      simp only [Except.ok.injEq] at h
      subst h
      simp only [cleanup_zero_positions, List.mem_filter] at hr
      have := hr.2
      simp only [Bool.not_eq_true', decide_eq_false_iff_not] at this
      rcases not_and_or.mp this with hx | hx
      · exact absurd hcode hx
      · exact lt_of_not_le hx

/-- Claim C4 (witness): the amended invariant applied to a concrete market
sell that leaves a 6-coin row: the surviving row is above ε. -/
theorem c4_witness :
    create_market_order (1 / 2000) "KRW-XRP" Side.sell 4 1000 c4wSt =
        .ok (c4wSt1, ⟨0, "KRW-XRP", .sell, .market, none, 4, 4, some 1000, 2, .filled, 0⟩) ∧
      EPS < (6 : ℚ) := by
  have heq : create_market_order (1 / 2000) "KRW-XRP" Side.sell 4 1000 c4wSt =
      .ok (c4wSt1, ⟨0, "KRW-XRP", .sell, .market, none, 4, 4, some 1000, 2, .filled, 0⟩) := by
    norm_num [create_market_order, validate_price, PRICE_RANGES, getPosition, adjQty,
      cleanup_zero_positions, c4wSt, c4wSt1, EPS]
  refine ⟨heq, ?_⟩
  have := c4_cleanup_invariant.2.1 (1 / 2000) "KRW-XRP" 4 1000 c4wSt c4wSt1
    ⟨0, "KRW-XRP", .sell, .market, none, 4, 4, some 1000, 2, .filled, 0⟩ heq
    ⟨"KRW-XRP", 6, 1000⟩ (by norm_num [c4wSt1]) rfl
  simpa using this

theorem cmo_filled (fr : ℚ) (code : String) (side : Side) (q c : ℚ) (s : St)
    (s1 : St) (o : Order) (h : create_market_order fr code side q c s = .ok (s1, o)) :
    o.status = OStatus.filled ∧ o.filledPrice = some c := by
  simp only [create_market_order] at h
  by_cases hv : validate_price code c = false
  · rw [if_pos hv] at h; exact nomatch h
  · rw [if_neg hv] at h
    cases side with
    | buy =>
        by_cases hb : s.balance < c * q + c * q * fr
        · simp only [hb, if_true, reduceIte] at h
          exact nomatch h
        · simp only [hb, if_false, reduceIte, Except.ok.injEq, Prod.mk.injEq] at h
          obtain ⟨_, ho⟩ := h
          subst ho
          exact ⟨rfl, rfl⟩
    | sell =>
        cases hg : getPosition code s.positions with
        | none => rw [hg] at h; exact nomatch h
        | some r =>
            rw [hg] at h
            by_cases hlt : r.qty < q
            · simp only [hlt, if_true, reduceIte] at h
              exact nomatch h
            · simp only [hlt, if_false, reduceIte, Except.ok.injEq, Prod.mk.injEq] at h
              obtain ⟨_, ho⟩ := h
              subst ho
              exact ⟨rfl, rfl⟩

theorem lr_shape_buy (fr : ℚ) (code : String) (q p : ℚ) (s : St)
    (s1 : St) (o : Order) (h : limit_reserve fr code Side.buy q p s = .ok (s1, o)) :
    o = ⟨s.nextId, code, .buy, .limit, some p, q, 0, none, 0, .pending, s.nextId⟩ ∧
    s1 = { s with
            balance := s.balance - (p * q + p * q * fr),
            orders := s.orders ++
              [⟨s.nextId, code, .buy, .limit, some p, q, 0, none, 0, .pending, s.nextId⟩],
            nextId := s.nextId + 1 } := by
  simp only [limit_reserve] at h
  by_cases hb : s.balance < p * q + p * q * fr
  · simp only [hb, if_true, reduceIte] at h
    exact nomatch h
  · simp only [hb, if_false, reduceIte, Except.ok.injEq, Prod.mk.injEq] at h
    exact ⟨h.2.symm, h.1.symm⟩

theorem lr_pending (fr : ℚ) (code : String) (side : Side) (q p : ℚ) (s : St)
    (s1 : St) (o : Order) (h : limit_reserve fr code side q p s = .ok (s1, o)) :
    o.status = OStatus.pending := by
  simp only [limit_reserve] at h
  cases side with
  | buy =>
      by_cases hb : s.balance < p * q + p * q * fr
      · simp only [hb, if_true, reduceIte] at h
        exact nomatch h
      · simp only [hb, if_false, reduceIte, Except.ok.injEq, Prod.mk.injEq] at h
        rw [← h.2]
  | sell =>
      cases hg : getPosition code s.positions with
      | none => rw [hg] at h; exact nomatch h
      | some r =>
          rw [hg] at h
          by_cases hlt : r.qty < q
          · simp only [hlt, if_true, reduceIte] at h
            exact nomatch h
          · simp only [hlt, if_false, reduceIte, Except.ok.injEq, Prod.mk.injEq] at h
            rw [← h.2]

/-- Claim C5: creating a non-crossing limit buy debits exactly
`p·q + fee_rate·p·q`, and cancelling it credits the same amount back, so the
balance returns to its pre-create value and the order becomes cancelled. -/
theorem c5_create_cancel_roundtrip (fr : ℚ) (code : String) (q p : ℚ)
    (cur : Option ℚ) (s s1 : St) (o : Order) (hwf : Wf s)
    (h : create_limit_order fr code Side.buy q p cur s = .ok (s1, o))
    (hp : o.status = OStatus.pending) :
    s1.balance = s.balance - (p * q + p * q * fr) ∧
    ∃ s2, cancel_order fr o.oid s1 = .ok s2 ∧ s2.balance = s.balance ∧
      (s2.orders.find? (fun x => x.oid = o.oid)).map (fun x => x.status) =
        some OStatus.cancelled := by
  obtain ⟨hpos, hoq, hoid⟩ := hwf
  simp only [create_limit_order] at h
  by_cases hv : validate_price code p = false
  · rw [if_pos hv] at h; exact nomatch h
  · rw [if_neg hv] at h
    have hres : limit_reserve fr code Side.buy q p s = .ok (s1, o) := by
      cases cur with
      | none => exact h
      | some m =>
          dsimp only at h
          by_cases hd : validate_price_against_market p m = false
          · rw [if_pos hd] at h; exact nomatch h
          · rw [if_neg hd] at h
            by_cases hc : m ≤ p
            · rw [if_pos (by simp [hc])] at h
              have := (cmo_filled fr code Side.buy q m s s1 o h).1
              rw [hp] at this
              exact nomatch this
            · rw [if_neg (by simp [hc])] at h
              exact h
    obtain ⟨ho, hs1⟩ := lr_shape_buy fr code q p s s1 o hres
    subst ho
    subst hs1
    refine ⟨rfl, ?_⟩
    have hfind :
        (s.orders ++
          [(⟨s.nextId, code, .buy, .limit, some p, q, 0, none, 0, .pending, s.nextId⟩ :
            Order)]).find?
          (fun x => x.oid = s.nextId) = some
            ⟨s.nextId, code, .buy, .limit, some p, q, 0, none, 0, .pending, s.nextId⟩ := by
      rw [List.find?_append]
      have h1 : s.orders.find? (fun x => (x.oid = s.nextId : Bool)) = none := by
        rw [List.find?_eq_none]
        intro x hx
        have := hoid x hx
        simp only [decide_eq_true_eq]
        omega
      rw [h1]
      simp
    refine ⟨⟨s.balance - (p * q + p * q * fr) + (p * q + p * q * fr),
        s.positions,
        updateOrd s.nextId (fun x => { x with status := OStatus.cancelled })
          (s.orders ++
            [⟨s.nextId, code, .buy, .limit, some p, q, 0, none, 0, OStatus.pending,
              s.nextId⟩]),
        s.nextId + 1⟩, ?_, by dsimp only; ring, ?_⟩
    · simp only [cancel_order, hfind]
      rfl
    · dsimp only
      rw [find?_updateOrd _ s.nextId _ _ hfind rfl]
      rfl

/-- Claim C5 (witness): the create/cancel roundtrip evaluated on a concrete
non-crossing limit buy of 10 KRW-XRP at 900 from a fresh join. -/
theorem c5_witness :
    (create_limit_order (1 / 2000) "KRW-XRP" Side.buy 10 900 none (initSt 1000000) =
        .ok (c5St1, c5Ord)) ∧
    c5Ord.status = OStatus.pending ∧
    (c5St1.balance = (initSt 1000000).balance - (900 * 10 + 900 * 10 * (1 / 2000)) ∧
      ∃ s2, cancel_order (1 / 2000) c5Ord.oid c5St1 = .ok s2 ∧
        s2.balance = (initSt 1000000).balance ∧
        (s2.orders.find? (fun x => x.oid = c5Ord.oid)).map (fun x => x.status) =
          some OStatus.cancelled) := by
  have heq : create_limit_order (1 / 2000) "KRW-XRP" Side.buy 10 900 none (initSt 1000000) =
      .ok (c5St1, c5Ord) := by
    norm_num [create_limit_order, limit_reserve, validate_price, PRICE_RANGES, initSt,
      c5St1, c5Ord]
  exact ⟨heq, rfl,
    c5_create_cancel_roundtrip (1 / 2000) "KRW-XRP" 10 900 none (initSt 1000000) c5St1
      c5Ord (wf_init 1000000) heq rfl⟩

/-- Claim C6: cancelling a pending limit sell of quantity q adds exactly q
back to the (participant, code) position row; when the row no longer exists
(deleted by ε-cleanup), the UPSERT path re-creates it with quantity q, so
the cancel succeeds either way. -/
theorem c6_cancel_sell_refund (fr : ℚ) (oid : ℕ) (s : St) (o : Order)
    (hf : s.orders.find? (fun x => x.oid = oid) = some o)
    (hst : o.status = OStatus.pending) (hty : o.otype = OType.limit)
    (hside : o.side = Side.sell) :
    ∃ s2, cancel_order fr oid s = .ok s2 ∧
      (∀ r, getPosition o.code s.positions = some r →
          getPosition o.code s2.positions = some { r with qty := r.qty + o.qty }) ∧
      (getPosition o.code s.positions = none →
          getPosition o.code s2.positions =
            some ⟨o.code, o.qty, o.price.getD 0⟩) := by
  simp only [cancel_order, hf]
  rw [if_neg (by simp [hst]), if_neg (by simp [hty])]
  rw [hside]
  cases hg : getPosition o.code s.positions with
  | some r =>
      refine ⟨_, rfl, ?_, ?_⟩
      · intro r' hr'
        injection hr' with hr'
        subst hr'
        dsimp only
        rw [getPosition_adjQty, hg]
        rfl
      · intro hnone
        exact nomatch hnone
  | none =>
      refine ⟨_, rfl, ?_, ?_⟩
      · intro r' hr'
        exact nomatch hr'
      · intro _
        dsimp only
        rw [getPosition, List.find?_append]
        have h1 : s.positions.find? (fun r => (r.code = o.code : Bool)) = none := by
          simpa [getPosition] using hg
        rw [h1]
        simp

/-- Claim C6 (witness): cancelling the orphaned pending sell succeeds and the
UPSERT path re-creates the position row with quantity 5. -/
theorem c6_witness :
    (c6St.orders.find? (fun x => x.oid = 0) = some c6Ord) ∧
    c6Ord.status = OStatus.pending ∧ c6Ord.otype = OType.limit ∧
    c6Ord.side = Side.sell ∧
    ∃ s2, cancel_order (1 / 2000) 0 c6St = .ok s2 ∧
      (∀ r, getPosition c6Ord.code c6St.positions = some r →
          getPosition c6Ord.code s2.positions = some { r with qty := r.qty + c6Ord.qty }) ∧
      (getPosition c6Ord.code c6St.positions = none →
          getPosition c6Ord.code s2.positions =
            some ⟨c6Ord.code, c6Ord.qty, c6Ord.price.getD 0⟩) :=
  ⟨rfl, rfl, rfl, rfl, c6_cancel_sell_refund (1 / 2000) 0 c6St c6Ord rfl rfl rfl rfl⟩

/-- Claim C1: for a market buy at an accepted price, with total = price·qty
and fee = total·fee_rate, the call succeeds iff the balance covers
total + fee at the conditional update; on success the balance is debited by
exactly total + fee, and otherwise an insufficient-balance error is raised
and the transaction leaves the state unchanged. -/
theorem c1_market_buy_guard (fr : ℚ) (code : String) (q c : ℚ) (s : St)
    (hv : validate_price code c = true) :
    (c * q + c * q * fr ≤ s.balance →
      ∃ s1 o, create_market_order fr code Side.buy q c s = .ok (s1, o) ∧
        s1.balance = s.balance - (c * q + c * q * fr)) ∧
    (s.balance < c * q + c * q * fr →
      create_market_order fr code Side.buy q c s = .error Err.insufficientBalance ∧
      step fr s (.market code Side.buy q c) = s) := by
  constructor
  · intro hle
    have hb : ¬s.balance < c * q + c * q * fr := not_lt.mpr hle
    refine ⟨{ s with
          balance := s.balance - (c * q + c * q * fr),
          positions := upsert_position code q c s.positions,
          orders := s.orders ++
            [⟨s.nextId, code, .buy, .market, none, q, q, some c, c * q * fr, .filled,
              s.nextId⟩],
          nextId := s.nextId + 1 },
        ⟨s.nextId, code, .buy, .market, none, q, q, some c, c * q * fr, .filled,
          s.nextId⟩, ?_, rfl⟩
    simp only [create_market_order,
      if_neg (by simp [hv] : ¬validate_price code c = false)]
    rw [if_neg hb, if_neg hb]
  · intro hlt
    have herr : create_market_order fr code Side.buy q c s =
        .error Err.insufficientBalance := by
      simp only [create_market_order,
        if_neg (by simp [hv] : ¬validate_price code c = false)]
      rw [if_pos hlt]
    exact ⟨herr, by simp [step, herr]⟩

/-- Claim C1 (witness): the guard evaluated on a fresh join buying
10 KRW-XRP at 1000 (cost 10005 ≤ 1,000,000). -/
theorem c1_witness :
    validate_price "KRW-XRP" 1000 = true ∧
    ((1000 : ℚ) * 10 + 1000 * 10 * (1 / 2000) ≤ (initSt 1000000).balance) ∧
    ∃ s1 o, create_market_order (1 / 2000) "KRW-XRP" Side.buy 10 1000 (initSt 1000000) =
        .ok (s1, o) ∧
      s1.balance = (initSt 1000000).balance - (1000 * 10 + 1000 * 10 * (1 / 2000)) := by
  refine ⟨by norm_num [validate_price, PRICE_RANGES], by norm_num [initSt], ?_⟩
  exact (c1_market_buy_guard (1 / 2000) "KRW-XRP" 10 1000 (initSt 1000000)
    (by norm_num [validate_price, PRICE_RANGES])).1 (by norm_num [initSt])

/-- Claim C2: when the market price m is known and the band and deviation
checks pass, a limit order whose price crosses the market (buy with
limit ≥ m, sell with limit ≤ m) escalates: any order it returns is filled
with filled_price = m; a non-crossing limit order returns a pending order. -/
theorem c2_crossing_escalation (fr : ℚ) (code : String) (side : Side) (q p m : ℚ)
    (s : St) (hb : validate_price code p = true)
    (hd : validate_price_against_market p m = true) :
    (((side = Side.buy ∧ m ≤ p) ∨ (side = Side.sell ∧ p ≤ m)) →
      ∀ s1 o, create_limit_order fr code side q p (some m) s = .ok (s1, o) →
        o.status = OStatus.filled ∧ o.filledPrice = some m) ∧
    (¬((side = Side.buy ∧ m ≤ p) ∨ (side = Side.sell ∧ p ≤ m)) →
      ∀ s1 o, create_limit_order fr code side q p (some m) s = .ok (s1, o) →
        o.status = OStatus.pending) := by
  constructor
  · intro hc s1 o h
    simp only [create_limit_order, if_neg (by simp [hb] : ¬validate_price code p = false)]
      at h
    rw [if_neg (by simp [hd] : ¬validate_price_against_market p m = false),
      if_pos hc] at h
    exact cmo_filled fr code side q m s s1 o h
  · intro hc s1 o h
    simp only [create_limit_order, if_neg (by simp [hb] : ¬validate_price code p = false)]
      at h
    rw [if_neg (by simp [hd] : ¬validate_price_against_market p m = false),
      if_neg hc] at h
    exact lr_pending fr code side q p s s1 o h

/-- Claim C2 (witness): a limit buy at 1000 against market 950 (checks pass,
deviation ≈ 5.3%) fills at 950, not at 1000. -/
theorem c2_witness :
    validate_price "KRW-XRP" 1000 = true ∧
    validate_price_against_market 1000 950 = true ∧
    c2Ord.status = OStatus.filled ∧ c2Ord.filledPrice = some 950 := by
  have heq : create_limit_order (1 / 2000) "KRW-XRP" Side.buy 10 1000 (some 950)
      (initSt 1000000) = .ok (c2St1, c2Ord) := by
    norm_num [create_limit_order, create_market_order, validate_price, PRICE_RANGES,
      validate_price_against_market, MAX_PRICE_DEVIATION, upsert_position, getPosition,
      initSt, c2St1, c2Ord]
  have hmain := (c2_crossing_escalation (1 / 2000) "KRW-XRP" Side.buy 10 1000 950
    (initSt 1000000) (by norm_num [validate_price, PRICE_RANGES])
    (by norm_num [validate_price_against_market, MAX_PRICE_DEVIATION])).1
    (Or.inl ⟨rfl, by norm_num⟩) c2St1 c2Ord heq
  exact ⟨by norm_num [validate_price, PRICE_RANGES],
    by norm_num [validate_price_against_market, MAX_PRICE_DEVIATION],
    hmain.1, hmain.2⟩

/-- Claim C7: with a positive server price s, POST /orders rejects with a
price-mismatch error exactly when |c − s| / s exceeds 10%, and otherwise
executes with the server price s (never the client's c); with no archived
price it executes with the client price. -/
theorem c7_price_authority (c s : ℚ) (hs : 0 < s) :
    (MAX_PRICE_DEVIATION < |c - s| / s →
        select_validated_price c (some s) = .error Err.priceMismatch) ∧
    (|c - s| / s ≤ MAX_PRICE_DEVIATION →
        select_validated_price c (some s) = .ok s) ∧
    (∀ c0 : ℚ, select_validated_price c0 none = .ok c0) := by
  have hne : s ≠ 0 := ne_of_gt hs
  have hnle : ¬s ≤ 0 := not_le.mpr hs
  refine ⟨?_, ?_, fun c0 => rfl⟩
  · intro hdev
    simp only [select_validated_price, validate_client_price, if_pos hne, if_neg hnle,
      if_pos hdev]
  · intro hdev
    simp only [select_validated_price, validate_client_price, if_pos hne, if_neg hnle,
      if_neg (not_lt.mpr hdev)]

/-- Claim C7 (witness): server price 95, client 100 (deviation ≈ 5.3%) is
accepted and the server price is used; client 200 is rejected. -/
theorem c7_witness :
    (0 : ℚ) < 95 ∧
    select_validated_price 100 (some 95) = .ok 95 ∧
    select_validated_price 200 (some 95) = .error Err.priceMismatch := by
  refine ⟨by norm_num, ?_, ?_⟩
  · exact (c7_price_authority 100 95 (by norm_num)).2.1
      (by rw [MAX_PRICE_DEVIATION]; rw [abs_of_pos] <;> norm_num)
  · exact (c7_price_authority 200 95 (by norm_num)).1
      (by rw [MAX_PRICE_DEVIATION]; rw [abs_of_pos] <;> norm_num)

/-- Claim C10: with the cache backend disconnected, setnx_with_ttl returns
True for every key, two successive duplicate-suppression checks with the
same (user, idempotency key) both pass (so each call creates an order), and
a DuplicateOrder error is reachable only with a connected cache. -/
theorem c10_dedupe_failopen :
    (∀ (c : Cache) (key : String), c.connected = false →
        setnx_with_ttl c key = (true, c)) ∧
    (∀ (c : Cache) (uid k h : String), c.connected = false →
        order_dedupe (some c) uid (some k) h = .ok (some c) ∧
        (order_dedupe (some c) uid (some k) h).bind
            (fun c2 => order_dedupe c2 uid (some k) h) = .ok (some c)) ∧
    (∀ (cache : Option Cache) (uid : String) (k : Option String) (h : String),
        order_dedupe cache uid k h = .error Err.duplicateOrder →
        ∃ c, cache = some c ∧ c.connected = true) := by
  have hset : ∀ (c : Cache) (key : String), c.connected = false →
      setnx_with_ttl c key = (true, c) := by
    intro c key hc
    simp [setnx_with_ttl, hc]
  refine ⟨hset, ?_, ?_⟩
  · intro c uid k h hc
    have h1 : order_dedupe (some c) uid (some k) h = .ok (some c) := by
      simp only [order_dedupe, hset c _ hc]
      rfl
    exact ⟨h1, by rw [h1]; simpa using h1⟩
  · intro cache uid k h hd
    cases cache with
    | none => simp [order_dedupe] at hd
    | some c =>
        refine ⟨c, rfl, ?_⟩
        by_cases hc : c.connected = true
        · exact hc
        · have hc' : c.connected = false := by
            cases hcc : c.connected
            · rfl
            · exact absurd hcc hc
          cases k with
          | some kk =>
              rw [order_dedupe] at hd
              simp only [hset c _ hc'] at hd
              exact nomatch hd
          | none =>
              rw [order_dedupe] at hd
              simp only [hset c _ hc'] at hd
              exact nomatch hd

/-- Claim C10 (witness): the fail-open behaviour on a disconnected cache
with a concrete user and key. -/
theorem c10_witness :
    (Cache.mk false []).connected = false ∧
    setnx_with_ttl ⟨false, []⟩ "order:idempotency:u1:abc" = (true, ⟨false, []⟩) ∧
    order_dedupe (some ⟨false, []⟩) "u1" (some "abc") "" = .ok (some ⟨false, []⟩) :=
  ⟨rfl, c10_dedupe_failopen.1 ⟨false, []⟩ "order:idempotency:u1:abc" rfl,
    (c10_dedupe_failopen.2.1 ⟨false, []⟩ "u1" "abc" "" rfl).1⟩

theorem mem_insertByCreated (o x : Order) (l : List Order) :
    x ∈ insertByCreated o l ↔ x = o ∨ x ∈ l := by
  induction l with
  | nil => simp [insertByCreated]
  | cons y ys ih =>
      by_cases hc : o.createdAt < y.createdAt
      · simp [insertByCreated, hc]
      · simp only [insertByCreated, if_neg hc, List.mem_cons, ih]
        tauto

theorem mem_sortByCreated (x : Order) (l : List Order) :
    x ∈ sortByCreated l ↔ x ∈ l := by
  induction l with
  | nil => simp [sortByCreated]
  | cons y ys ih =>
      simp only [sortByCreated, mem_insertByCreated, List.mem_cons, ih]

theorem pairwise_insertByCreated (o : Order) (l : List Order)
    (h : l.Pairwise (fun a b => a.createdAt ≤ b.createdAt)) :
    (insertByCreated o l).Pairwise (fun a b => a.createdAt ≤ b.createdAt) := by
  induction l with
  | nil => simp [insertByCreated]
  | cons y ys ih =>
      rcases List.pairwise_cons.mp h with ⟨hy, hys⟩
      by_cases hc : o.createdAt < y.createdAt
      · rw [insertByCreated, if_pos hc]
        refine List.pairwise_cons.mpr ⟨?_, h⟩
        intro b hb
        rcases List.mem_cons.mp hb with hb | hb
        · rw [hb]; exact le_of_lt hc
        · exact le_trans (le_of_lt hc) (hy b hb)
      · rw [insertByCreated, if_neg hc]
        refine List.pairwise_cons.mpr ⟨?_, ih hys⟩
        intro b hb
        rcases (mem_insertByCreated o b ys).mp hb with hb | hb
        · rw [hb]; exact not_lt.mp hc
        · exact hy b hb

theorem pairwise_sortByCreated (l : List Order) :
    (sortByCreated l).Pairwise (fun a b => a.createdAt ≤ b.createdAt) := by
  induction l with
  | nil => simp [sortByCreated]
  | cons y ys ih => exact pairwise_insertByCreated y (sortByCreated ys) ih

theorem processBatch_attempts (exec : Order → ℚ → Except Unit Unit) (price : ℚ)
    (l : List Order) : (processBatch exec price l).2 = l := by
  induction l with
  | nil => rfl
  | cons o rest ih =>
      simp only [processBatch]
      cases exec o price with
      | ok _ => simpa using ih
      | error _ => simpa using ih

theorem processBatch_count (exec : Order → ℚ → Except Unit Unit) (price : ℚ)
    (l : List Order) :
    (processBatch exec price l).1 = l.countP (fun o => isOk (exec o price)) := by
  induction l with
  | nil => rfl
  | cons o rest ih =>
      simp only [processBatch, List.countP_cons]
      cases hx : exec o price with
      | ok _ => simp [isOk, hx, ih]
      | error _ => simp [isOk, hx, ih]

/-- Claim C8: on a tick (code, trade_price) with a nonempty code and a
nonzero price, the engine selects exactly the pending limit buys of the code
with price ≥ tick and the pending limit sells with price ≤ tick, each batch
sorted ascending by created_at; every selected order is attempted (a failing
execution is skipped without stopping the batch), and the returned count is
the number of successful executions at the tick price over both batches. -/
theorem c8_matching (exec : Order → ℚ → Except Unit Unit) (orders : List Order)
    (c : String) (tick : ℚ) (hc : c ≠ "") (ht : tick ≠ 0) :
    (∀ o, o ∈ get_pending_buy_orders orders c tick ↔
        o ∈ orders ∧ o.code = c ∧ o.status = OStatus.pending ∧
          o.otype = OType.limit ∧ o.side = Side.buy ∧ tick ≤ o.price.getD 0) ∧
    (∀ o, o ∈ get_pending_sell_orders orders c tick ↔
        o ∈ orders ∧ o.code = c ∧ o.status = OStatus.pending ∧
          o.otype = OType.limit ∧ o.side = Side.sell ∧ o.price.getD 0 ≤ tick) ∧
    (get_pending_buy_orders orders c tick).Pairwise
      (fun a b => a.createdAt ≤ b.createdAt) ∧
    (get_pending_sell_orders orders c tick).Pairwise
      (fun a b => a.createdAt ≤ b.createdAt) ∧
    (processBatch exec tick (get_pending_buy_orders orders c tick)).2 =
      get_pending_buy_orders orders c tick ∧
    (processBatch exec tick (get_pending_sell_orders orders c tick)).2 =
      get_pending_sell_orders orders c tick ∧
    process_ticker exec orders (some c) tick =
      (get_pending_buy_orders orders c tick).countP (fun o => isOk (exec o tick)) +
        (get_pending_sell_orders orders c tick).countP
          (fun o => isOk (exec o tick)) := by
  refine ⟨?_, ?_, ?_, ?_, ?_, ?_, ?_⟩
  · intro o
    simp only [get_pending_buy_orders, mem_sortByCreated, List.mem_filter, eligibleBuy,
      Bool.and_eq_true, decide_eq_true_eq]
    tauto
  · intro o
    simp only [get_pending_sell_orders, mem_sortByCreated, List.mem_filter, eligibleSell,
      Bool.and_eq_true, decide_eq_true_eq]
    tauto
  · exact pairwise_sortByCreated _
  · exact pairwise_sortByCreated _
  · exact processBatch_attempts exec tick _
  · exact processBatch_attempts exec tick _
  · simp only [process_ticker, if_neg (by simp [hc, ht] : ¬(c = "" ∨ tick = 0)),
      processBatch_count]

/-- Claim C8 (witness): one eligible buy and one stale cancelled order; an
execution function that always fails still attempts the eligible order and
reports zero fills. -/
theorem c8_witness :
    ("KRW-XRP" : String) ≠ "" ∧ (1000 : ℚ) ≠ 0 ∧
    (∀ o, o ∈ get_pending_buy_orders
        [⟨0, "KRW-XRP", .buy, .limit, some 1100, 1, 0, none, 0, .pending, 0⟩,
         ⟨1, "KRW-XRP", .buy, .limit, some 1100, 1, 0, none, 0, .cancelled, 1⟩]
        "KRW-XRP" 1000 ↔
      o ∈ [⟨0, "KRW-XRP", .buy, .limit, some 1100, 1, 0, none, 0, .pending, 0⟩,
           ⟨1, "KRW-XRP", .buy, .limit, some 1100, 1, 0, none, 0, .cancelled, 1⟩] ∧
        o.code = "KRW-XRP" ∧ o.status = OStatus.pending ∧ o.otype = OType.limit ∧
        o.side = Side.buy ∧ (1000 : ℚ) ≤ o.price.getD 0) ∧
    process_ticker (fun _ _ => .error ())
      [⟨0, "KRW-XRP", .buy, .limit, some 1100, 1, 0, none, 0, .pending, 0⟩,
       ⟨1, "KRW-XRP", .buy, .limit, some 1100, 1, 0, none, 0, .cancelled, 1⟩]
      (some "KRW-XRP") 1000 = 0 := by
  have h := c8_matching (fun _ _ => .error ())
    [⟨0, "KRW-XRP", .buy, .limit, some 1100, 1, 0, none, 0, .pending, 0⟩,
     ⟨1, "KRW-XRP", .buy, .limit, some 1100, 1, 0, none, 0, .cancelled, 1⟩]
    "KRW-XRP" 1000 (by simp) (by norm_num)
  refine ⟨by simp, by norm_num, h.1, ?_⟩
  rw [h.2.2.2.2.2.2]
  simp [List.countP, List.countP.go, isOk]

theorem mem_insertByBalance (e x : LEntry) (l : List LEntry) :
    x ∈ insertByBalance e l ↔ x = e ∨ x ∈ l := by
  induction l with
  | nil => simp [insertByBalance]
  | cons y ys ih =>
      by_cases hc : y.balance < e.balance
      · simp [insertByBalance, hc]
      · simp only [insertByBalance, if_neg hc, List.mem_cons, ih]
        tauto

theorem mem_sortByBalanceDesc (x : LEntry) (l : List LEntry) :
    x ∈ sortByBalanceDesc l ↔ x ∈ l := by
  induction l with
  | nil => simp [sortByBalanceDesc]
  | cons y ys ih =>
      simp only [sortByBalanceDesc, mem_insertByBalance, List.mem_cons, ih]

theorem pairwise_insertByBalance (e : LEntry) (l : List LEntry)
    (h : l.Pairwise (fun a b => b.balance ≤ a.balance)) :
    (insertByBalance e l).Pairwise (fun a b => b.balance ≤ a.balance) := by
  induction l with
  | nil => simp [insertByBalance]
  | cons y ys ih =>
      rcases List.pairwise_cons.mp h with ⟨hy, hys⟩
      by_cases hc : y.balance < e.balance
      · rw [insertByBalance, if_pos hc]
        refine List.pairwise_cons.mpr ⟨?_, h⟩
        intro b hb
        rcases List.mem_cons.mp hb with hb | hb
        · rw [hb]; exact le_of_lt hc
        · exact le_trans (hy b hb) (le_of_lt hc)
      · rw [insertByBalance, if_neg hc]
        refine List.pairwise_cons.mpr ⟨?_, ih hys⟩
        intro b hb
        rcases (mem_insertByBalance e b ys).mp hb with hb | hb
        · rw [hb]; exact not_lt.mp hc
        · exact hy b hb

theorem pairwise_sortByBalanceDesc (l : List LEntry) :
    (sortByBalanceDesc l).Pairwise (fun a b => b.balance ≤ a.balance) := by
  induction l with
  | nil => simp [sortByBalanceDesc]
  | cons y ys ih => exact pairwise_insertByBalance y (sortByBalanceDesc ys) ih

theorem mem_assignRanks (x : LEntry) (l : List LEntry) :
    ∀ i, x ∈ assignRanks i l → ∃ e ∈ l, ∃ j, x = { e with rank := j } := by
  induction l with
  | nil => intro i hx; simp [assignRanks] at hx
  | cons y ys ih =>
      intro i hx
      rcases List.mem_cons.mp hx with hx | hx
      · exact ⟨y, List.mem_cons_self y ys, i, hx⟩
      · rcases ih (i + 1) hx with ⟨e, he, j, hj⟩
        exact ⟨e, List.mem_cons_of_mem _ he, j, hj⟩

theorem pairwise_assignRanks (l : List LEntry)
    (h : l.Pairwise (fun a b => b.balance ≤ a.balance)) :
    ∀ i, (assignRanks i l).Pairwise (fun a b => b.balance ≤ a.balance) := by
  induction l with
  | nil => intro i; simp [assignRanks]
  | cons y ys ih =>
      intro i
      rcases List.pairwise_cons.mp h with ⟨hy, hys⟩
      refine List.pairwise_cons.mpr ⟨?_, ih hys (i + 1)⟩
      intro b hb
      rcases mem_assignRanks b ys (i + 1) hb with ⟨e, he, j, hj⟩
      rw [hj]
      exact hy e he

/-- Claim C9: every leaderboard entry carries total_asset = balance +
coin value at the supplied prices + amount reserved by pending orders, with
profit_rate computed from total_asset, while the ranking order is descending
on the cash balance alone — and on a concrete input with a coin-rich
poorer-in-cash participant, the output is not sorted by total_asset. -/
theorem c9_leaderboard (fr init : ℚ) (prices : String → ℚ) (parts : List PRow) :
    (∀ e ∈ get_leaderboard fr init prices parts, ∃ p ∈ parts,
        e.username = p.username ∧
        e.balance = p.balance ∧
        e.coin_value = coinValue prices p.positions ∧
        e.total_asset = p.balance + coinValue prices p.positions +
          pendingAmount fr prices p.orders ∧
        e.profit_rate = (e.total_asset - init) / init * 100) ∧
    (get_leaderboard fr init prices parts).Pairwise
      (fun a b => b.balance ≤ a.balance) ∧
    ¬(get_leaderboard (1 / 2000) 1000000 (fun _ => 100)
        [⟨"alice", 50, [⟨"KRW-XRP", 100, 90⟩], [], 0⟩, ⟨"bob", 60, [], [], 0⟩]).Pairwise
      (fun a b => b.total_asset ≤ a.total_asset) := by
  refine ⟨?_, ?_, ?_⟩
  · intro e he
    rcases mem_assignRanks e _ 1 he with ⟨e1, he1, j, hj⟩
    rcases List.mem_map.mp ((mem_sortByBalanceDesc e1 _).mp he1) with ⟨p, hp, hpe⟩
    subst hpe
    exact ⟨p, hp, by rw [hj]; rfl, by rw [hj]; rfl, by rw [hj]; rfl, by rw [hj]; rfl,
      by rw [hj]; rfl⟩
  · exact pairwise_assignRanks _ (pairwise_sortByBalanceDesc _) 1
  · intro hcon
    norm_num [get_leaderboard, mkEntry, coinValue, pendingAmount, sortByBalanceDesc,
      insertByBalance, assignRanks, List.pairwise_cons] at hcon

/-- Claim C9 (witness): the entry formula applied to a concrete single
participant with balance 100 and no coins. -/
theorem c9_witness :
    (⟨"u", 100 + 0 + 0, 100, 0, (100 + 0 + 0 - 1000000) / 1000000 * 100, 0, 1⟩ : LEntry) ∈
      get_leaderboard (1 / 2000) 1000000 (fun _ => 0) [⟨"u", 100, [], [], 0⟩] ∧
    ∃ p ∈ [(⟨"u", 100, [], [], 0⟩ : PRow)],
      (⟨"u", 100 + 0 + 0, 100, 0, (100 + 0 + 0 - 1000000) / 1000000 * 100, 0, 1⟩ :
          LEntry).username = p.username ∧
      (⟨"u", 100 + 0 + 0, 100, 0, (100 + 0 + 0 - 1000000) / 1000000 * 100, 0, 1⟩ :
          LEntry).balance = p.balance ∧
      (⟨"u", 100 + 0 + 0, 100, 0, (100 + 0 + 0 - 1000000) / 1000000 * 100, 0, 1⟩ :
          LEntry).coin_value = coinValue (fun _ => 0) p.positions ∧
      (⟨"u", 100 + 0 + 0, 100, 0, (100 + 0 + 0 - 1000000) / 1000000 * 100, 0, 1⟩ :
          LEntry).total_asset = p.balance + coinValue (fun _ => 0) p.positions +
        pendingAmount (1 / 2000) (fun _ => 0) p.orders ∧
      (⟨"u", 100 + 0 + 0, 100, 0, (100 + 0 + 0 - 1000000) / 1000000 * 100, 0, 1⟩ :
          LEntry).profit_rate =
        ((⟨"u", 100 + 0 + 0, 100, 0, (100 + 0 + 0 - 1000000) / 1000000 * 100, 0, 1⟩ :
          LEntry).total_asset - 1000000) / 1000000 * 100 := by
  have hm : (⟨"u", 100 + 0 + 0, 100, 0, (100 + 0 + 0 - 1000000) / 1000000 * 100, 0, 1⟩ :
      LEntry) ∈ get_leaderboard (1 / 2000) 1000000 (fun _ => 0) [⟨"u", 100, [], [], 0⟩] := by
    norm_num [get_leaderboard, mkEntry, coinValue, pendingAmount, sortByBalanceDesc,
      insertByBalance, assignRanks]
  exact ⟨hm, (c9_leaderboard (1 / 2000) 1000000 (fun _ => 0)
    [⟨"u", 100, [], [], 0⟩]).1 _ hm⟩

end UpbitSim

